import Mathlib

/-!
Verification of a separate-chaining hash table (Rust crate `hash_table`,
`src/lib.rs`).  The table is embedded shallowly: the bucket store
`Vec<Vec<(K, V)>>` becomes `List (List (K × V))`, the pluggable hashing
strategy (`SimpleHasher::hash`, a pure deterministic function returning a
`u64`) becomes a function `K → Nat`, and every operation that can panic in
Rust (the `hash as usize % self.buckets.len()` computations panic on a
remainder by zero when the table has zero buckets, and `Option::unwrap`)
returns `Except Unit`, with `Except.error ()` modelling the panic.
Key comparison `ek == k` (`PartialEq`) is modelled with `DecidableEq`.

The load-factor test `(total_entries + 1) as f64 / buckets.len() as f64 >
0.75` is rendered as the exact integer comparison
`4 * (total_entries + 1) > 3 * buckets.len()`; for every bucket count below
2^51 the `f64` division is close enough to the exact rational that the two
comparisons agree, so the rendering is faithful for all reachable tables.
-/

/-- First-match scan of one chain: models the `for (pos, (ek, _)) in
bucket.iter().enumerate()` loop in `HashTable::insert`, which breaks at the
first entry whose key equals `k`, recording the position; we also return the
stored value at that position (the value `mem::replace` hands back). -/
def firstMatch {K V : Type} [DecidableEq K] (k : K) : List (K × V) → Option (Nat × V)
  | [] => none
  | (ek, v) :: rest =>
      if ek = k then some (0, v)
      else (firstMatch k rest).map (fun p => (p.1 + 1, p.2))

/-- Value scan of one chain: models the `for (ek, v) in &self.buckets[i]`
loop of `HashTable::get`, returning the first value stored under `k`. -/
def findValue {K V : Type} [DecidableEq K] (k : K) : List (K × V) → Option V
  | [] => none
  | (ek, v) :: rest => if ek = k then some v else findValue k rest

/-- Last-match scan of one chain: models the loop in `HashTable::remove`,
which has no `break`, so a later match overwrites `index` and the last
matching position wins. -/
def lastMatch {K V : Type} [DecidableEq K] (k : K) : List (K × V) → Option (Nat × V)
  | [] => none
  | (ek, v) :: rest =>
      match lastMatch k rest with
      | some p => some (p.1 + 1, p.2)
      | none => if ek = k then some (0, v) else none

/-- In-place update of position `i` of a list (out-of-range indices leave the
list unchanged, but all uses are in range).  Models mutation of
`self.buckets[i]` / of one slot of a chain. -/
def modifyAt {α : Type} : List α → Nat → (α → α) → List α
  | [], _, _ => []
  | x :: xs, 0, f => f x :: xs
  | x :: xs, n + 1, f => x :: modifyAt xs n f

/-- Positional lookup in a list, `none` when out of range. -/
def nth? {α : Type} : List α → Nat → Option α
  | [], _ => none
  | x :: _, 0 => some x
  | _ :: xs, n + 1 => nth? xs n

/-- `Vec::swap_remove(i)`: overwrite slot `i` with the vector's last element
and drop the last slot. -/
def swapRemove {α : Type} (l : List α) (i : Nat) : List α :=
  match l.getLast? with
  | none => l
  | some y => (l.set i y).dropLast

/-- The hash table: a bucket store (`Vec<Vec<(K, V)>>`), the live-entry
counter `total_entries`, and the hashing strategy.  `hasher` models
`SimpleHasher::hash`, a pure deterministic `u64`-valued function (on a
64-bit target `hash as usize` is the identity, so we keep the hash a
`Nat`). -/
structure HashTable (K V : Type) where
  buckets : List (List (K × V))
  total_entries : Nat
  hasher : K → Nat

/-- `HashTable::with_capacity`: `capacity` empty chains and a zero counter.
In Rust this constructor fixes the `DefaultSimpleHasher` (SipHash via
`DefaultHasher`), whose concrete output values are implementation details;
we take the pure hash function as a parameter, which also covers
`with_hasher` (same body, capacity 10) and `new`/`default` (capacity 10). -/
def HashTable.with_capacity {K V : Type} (hasher : K → Nat) (capacity : Nat) :
    HashTable K V :=
  { buckets := List.replicate capacity [], total_entries := 0, hasher := hasher }

/-- `HashTable::with_hasher` (and `new`/`default`): 10 starting buckets. -/
def HashTable.with_hasher {K V : Type} (hasher : K → Nat) : HashTable K V :=
  HashTable.with_capacity hasher 10

/-- `capacity()`: the bucket-store length. -/
def HashTable.capacity {K V : Type} (t : HashTable K V) : Nat :=
  t.buckets.length

/-- The chain at bucket index `i` (`self.buckets[i]`; all uses are in
range). -/
def HashTable.bucketAt {K V : Type} (t : HashTable K V) (i : Nat) :
    List (K × V) :=
  t.buckets.getD i []

/-- All stored entries, in bucket order and chain order. -/
def HashTable.entries {K V : Type} (t : HashTable K V) : List (K × V) :=
  t.buckets.flatten

/-- The rehash loop of the resize pass, named so its properties can be
stated: each entry of `l` in order is pushed onto the chain `h e.1 % n`
selects. -/
def pushAll {K V : Type} (h : K → Nat) (n : Nat) (l : List (K × V))
    (bs : List (List (K × V))) : List (List (K × V)) :=
  l.foldl (fun bs2 e => modifyAt bs2 (h e.1 % n) (fun c => c ++ [e])) bs

/-- The resize pass of `_insert`: a fresh store of twice the bucket count,
then every entry of every chain is drained in order and pushed onto the
chain its hash selects under the new length. -/
def HashTable.resize {K V : Type} (t : HashTable K V) : HashTable K V :=
  { buckets :=
      t.entries.foldl
        (fun bs e =>
          modifyAt bs (t.hasher e.1 % (t.buckets.length * 2)) (fun c => c ++ [e]))
        (List.replicate (t.buckets.length * 2) [])
    total_entries := t.total_entries
    hasher := t.hasher }

/-- `HashTable::_insert`: grow (double and rehash) when the projected load
factor `(total_entries + 1) / capacity` exceeds 0.75, then push `(k, v)`
onto the chain `hash % capacity` selects against the (possibly new)
capacity, increment the counter, and return the position of the pushed
pair — the `&mut V` the Rust function returns is modelled as the (bucket,
chain) position of the slot it points at.  `hash % 0` panics in Rust, hence
the `Except.error` branch. -/
def HashTable._insert {K V : Type} (t : HashTable K V) (k : K) (v : V)
    (hash : Nat) : Except Unit ((Nat × Nat) × HashTable K V) :=
  let t1 := if 4 * (t.total_entries + 1) > 3 * t.buckets.length then t.resize else t
  if t1.buckets.length = 0 then Except.error ()
  else
    Except.ok ((hash % t1.buckets.length, (t1.bucketAt (hash % t1.buckets.length)).length),
      { buckets := modifyAt t1.buckets (hash % t1.buckets.length) (fun c => c ++ [(k, v)])
        total_entries := t1.total_entries + 1
        hasher := t1.hasher })

/-- `HashTable::insert`: scan the chain `hasher(k) % capacity` selects for
`k`; replace the value in place and return the previous one when found,
otherwise defer to `_insert` and return absence.  With zero buckets the
bucket-index computation panics (`Except.error`). -/
def HashTable.insert {K V : Type} [DecidableEq K] (t : HashTable K V) (k : K)
    (v : V) : Except Unit (Option V × HashTable K V) :=
  if t.buckets.length = 0 then Except.error ()
  else
    match firstMatch k (t.bucketAt (t.hasher k % t.buckets.length)) with
    | some p =>
        Except.ok (some p.2,
          { t with
              buckets :=
                modifyAt t.buckets (t.hasher k % t.buckets.length)
                  (fun c => c.set p.1 (k, v)) })
    | none => (t._insert k v (t.hasher k)).map (fun q => (none, q.2))

/-- The scan `HashTable::get` performs once the bucket index exists. -/
def HashTable.getCore {K V : Type} [DecidableEq K] (t : HashTable K V)
    (k : K) : Option V :=
  findValue k (t.bucketAt (t.hasher k % t.buckets.length))

/-- `HashTable::get`: absence is an ordinary `none`; zero buckets panic the
bucket-index computation. -/
def HashTable.get {K V : Type} [DecidableEq K] (t : HashTable K V) (k : K) :
    Except Unit (Option V) :=
  if t.buckets.length = 0 then Except.error ()
  else Except.ok (t.getCore k)

/-- `HashTable::get_mut`: same lookup as `get`, but the returned `&mut V` is
modelled as the (bucket, chain) position of the found slot. -/
def HashTable.get_mut {K V : Type} [DecidableEq K] (t : HashTable K V)
    (k : K) : Except Unit (Option (Nat × Nat)) :=
  if t.buckets.length = 0 then Except.error ()
  else
    Except.ok ((firstMatch k (t.bucketAt (t.hasher k % t.buckets.length))).map
      (fun p => (t.hasher k % t.buckets.length, p.1)))

/-- `HashTable::remove`: find the last matching position in the selected
chain (the loop has no `break`), `swap_remove` it and return its value;
absence returns `none` with the table untouched.  `total_entries` is not
changed on either path. -/
def HashTable.remove {K V : Type} [DecidableEq K] (t : HashTable K V)
    (k : K) : Except Unit (Option V × HashTable K V) :=
  if t.buckets.length = 0 then Except.error ()
  else
    match lastMatch k (t.bucketAt (t.hasher k % t.buckets.length)) with
    | none => Except.ok (none, t)
    | some p =>
        Except.ok (some p.2,
          { t with
              buckets :=
                modifyAt t.buckets (t.hasher k % t.buckets.length)
                  (fun c => swapRemove c p.1) })

/-- The `Entry` enum: a one-shot occupied/vacant view over one key. -/
inductive Entry (K V : Type) where
  | Occupied (ht : HashTable K V) (k : K)
  | Vacant (ht : HashTable K V) (k : K)

/-- `HashTable::entry`: `get` decides occupied versus vacant (and panics on
zero buckets, like `get`). -/
def HashTable.entry {K V : Type} [DecidableEq K] (t : HashTable K V)
    (k : K) : Except Unit (Entry K V) :=
  (t.get k).map (fun r =>
    match r with
    | some _ => Entry.Occupied t k
    | none => Entry.Vacant t k)

/-- `Entry::or_insert`: occupied ignores the default and returns `get_mut`'s
reference (`unwrap` of a `none` would panic); vacant performs `_insert` with
the hash of the key, exactly as `insert`'s not-found branch does.  The
returned `&mut V` is again a (bucket, chain) position. -/
def Entry.or_insert {K V : Type} [DecidableEq K] :
    Entry K V → V → Except Unit ((Nat × Nat) × HashTable K V)
  | Entry.Occupied ht k, _ =>
      match ht.get_mut k with
      | Except.error _ => Except.error ()
      | Except.ok none => Except.error ()
      | Except.ok (some pos) => Except.ok (pos, ht)
  | Entry.Vacant ht k, v => ht._insert k v (ht.hasher k)

/-- Writing through a `&mut V` that points at chain slot `pos.2` of bucket
`pos.1`: the stored value is replaced by `f` of itself, the key is
untouched.  This models the callers' `*r = ...` / `r.age += 100` mutations
on the reference `get_mut`, `_insert` and `or_insert` return. -/
def HashTable.writeAt {K V : Type} (t : HashTable K V) (pos : Nat × Nat)
    (f : V → V) : HashTable K V :=
  { t with
      buckets :=
        modifyAt t.buckets pos.1 (fun c =>
          modifyAt c pos.2 (fun e => (e.1, f e.2))) }

/-- Reading the slot a returned reference points at. -/
def HashTable.valueAt {K V : Type} (t : HashTable K V) (pos : Nat × Nat) :
    Option V :=
  (nth? t.buckets pos.1).bind (fun c => (nth? c pos.2).map Prod.snd)

/-- `HashTableIterator`: the not-yet-visited part of the current chain and
the not-yet-visited buckets. -/
structure HashTableIterator (K V : Type) where
  elements_iterator : List (K × V)
  buckets_iterator : List (List (K × V))

/-- `IntoIterator for &HashTable`: the first chain (or an empty iterator)
plus the remaining buckets. -/
def HashTable.iter {K V : Type} (t : HashTable K V) : HashTableIterator K V :=
  match t.buckets with
  | [] => { elements_iterator := [], buckets_iterator := [] }
  | b :: bs => { elements_iterator := b, buckets_iterator := bs }

/-- `HashTableIterator::next`: yield from the current chain, else advance to
the next bucket and recurse; iteration ends when both are exhausted. -/
def HashTableIterator.next {K V : Type} :
    HashTableIterator K V → Option ((K × V) × HashTableIterator K V)
  | ⟨e :: es, bs⟩ => some (e, ⟨es, bs⟩)
  | ⟨[], []⟩ => none
  | ⟨[], b :: bs⟩ => HashTableIterator.next ⟨b, bs⟩
termination_by it => it.buckets_iterator.length

/-- The full sequence of pairs a traversal produces, by the same recursion
pattern as `next`. -/
def runIter {K V : Type} : List (K × V) → List (List (K × V)) → List (K × V)
  | e :: es, bs => e :: runIter es bs
  | [], [] => []
  | [], b :: bs => runIter b bs
termination_by es bs => (bs.length, es.length)

/-- Everything a full traversal of the iterator yields. -/
def HashTableIterator.toList {K V : Type} (it : HashTableIterator K V) :
    List (K × V) :=
  runIter it.elements_iterator it.buckets_iterator

/-- Each chain stores only keys its bucket index is correct for. -/
def HashTable.goodBuckets {K V : Type} (t : HashTable K V) : Prop :=
  ∀ i, i < t.buckets.length → ∀ e ∈ t.bucketAt i,
    t.hasher e.1 % t.buckets.length = i

/-- Across all chains, at most one entry per distinct key. -/
def HashTable.nodupKeys {K V : Type} (t : HashTable K V) : Prop :=
  (t.entries.map Prod.fst).Nodup

/-- The representation invariant every reachable table enjoys. -/
def HashTable.Inv {K V : Type} (t : HashTable K V) : Prop :=
  t.goodBuckets ∧ t.nodupKeys

instance {K V : Type} (t : HashTable K V) : Decidable t.goodBuckets := by
  unfold HashTable.goodBuckets
  infer_instance

instance {K V : Type} [DecidableEq K] (t : HashTable K V) :
    Decidable t.nodupKeys := by
  unfold HashTable.nodupKeys
  infer_instance

instance {K V : Type} [DecidableEq K] (t : HashTable K V) :
    Decidable t.Inv := by
  unfold HashTable.Inv
  infer_instance

/-- Tables reachable through the public constructors and mutating
operations. -/
inductive Reachable {K V : Type} [DecidableEq K] : HashTable K V → Prop where
  | with_capacity (hasher : K → Nat) (c : Nat) :
      Reachable (HashTable.with_capacity hasher c)
  | with_hasher (hasher : K → Nat) :
      Reachable (HashTable.with_hasher hasher)
  | insert (t : HashTable K V) (k : K) (v : V) (r : Option V)
      (t' : HashTable K V) :
      Reachable t → t.insert k v = Except.ok (r, t') → Reachable t'
  | remove (t : HashTable K V) (k : K) (r : Option V) (t' : HashTable K V) :
      Reachable t → t.remove k = Except.ok (r, t') → Reachable t'
  | or_insert (t : HashTable K V) (k : K) (v : V) (e : Entry K V)
      (pos : Nat × Nat) (t' : HashTable K V) :
      Reachable t → t.entry k = Except.ok e →
      e.or_insert v = Except.ok (pos, t') → Reachable t'

/-- Post-state extraction from a successful mutating call; only used to name
concrete intermediate tables in concrete scenarios, all of whose calls are
proved to succeed. -/
def okTable (r : Except Unit (Option Nat × HashTable Nat Nat)) :
    HashTable Nat Nat :=
  match r with
  | Except.ok p => p.2
  | Except.error _ => HashTable.with_capacity (fun k => k) 1

/-- Concrete scenario (identity hash, capacity 4): three inserts, two
removes, then a fresh insert.  The live-entry counter stays at 3 across the
removes, so the sixth call resizes although only one entry is stored. -/
def cexT0 : HashTable Nat Nat := HashTable.with_capacity (fun k => k) 4

def cexT1 : HashTable Nat Nat := okTable (cexT0.insert 0 0)

def cexT2 : HashTable Nat Nat := okTable (cexT1.insert 1 1)

def cexT3 : HashTable Nat Nat := okTable (cexT2.insert 2 2)

def cexT4 : HashTable Nat Nat := okTable (cexT3.remove 0)

def cexT5 : HashTable Nat Nat := okTable (cexT4.remove 1)

def cexT6 : HashTable Nat Nat := okTable (cexT5.insert 5 5)

/-- A small concrete table (identity hash, 3 buckets, keys 0 and 1) used to
instantiate general theorems at a checkable input. -/
def tW1 : HashTable Nat Nat :=
  HashTable.mk [[(0, 5)], [(1, 7)], []] 2 (fun n => n)

def tW1r : HashTable Nat Nat := okTable (tW1.remove 0)

/-! ### Chain-scan lemmas -/

theorem nth?_mem {α : Type} : ∀ {l : List α} {i : Nat} {a : α},
    nth? l i = some a → a ∈ l
  | x :: _, 0, a, h => by
      simp [nth?] at h
      simp [h]
  | _ :: xs, i + 1, a, h => List.mem_cons_of_mem _ (nth?_mem (l := xs) h)

theorem nth?_lt {α : Type} : ∀ {l : List α} {i : Nat} {a : α},
    nth? l i = some a → i < l.length
  | x :: _, 0, _, _ => by simp
  | _ :: xs, i + 1, a, h => by
      have := nth?_lt (l := xs) (i := i) (a := a) h
      simpa using this

theorem nth?_concat_self {α : Type} : ∀ (l : List α) (a : α),
    nth? (l ++ [a]) l.length = some a
  | [], a => rfl
  | x :: xs, a => nth?_concat_self xs a

theorem nth?_append_lt {α : Type} : ∀ (l r : List α) (i : Nat), i < l.length →
    nth? (l ++ r) i = nth? l i
  | x :: xs, r, 0, _ => rfl
  | x :: xs, r, i + 1, h => nth?_append_lt xs r i (by simpa using h)

theorem getD_eq_nth? {α : Type} : ∀ (l : List α) (i : Nat) (d : α),
    l.getD i d = (nth? l i).getD d
  | [], _, _ => rfl
  | x :: xs, 0, d => rfl
  | x :: xs, i + 1, d => getD_eq_nth? xs i d

theorem firstMatch_none_iff {K V : Type} [DecidableEq K] (k : K) :
    ∀ (l : List (K × V)), firstMatch k l = none ↔ ∀ e ∈ l, e.1 ≠ k
  | [] => by simp [firstMatch]
  | (ek, v) :: rest => by
      by_cases h : ek = k
      · simp [firstMatch, h]
      · simp [firstMatch, h, Option.map_eq_none', firstMatch_none_iff k rest]

theorem findValue_eq_firstMatch {K V : Type} [DecidableEq K] (k : K) :
    ∀ (l : List (K × V)), findValue k l = (firstMatch k l).map Prod.snd
  | [] => rfl
  | (ek, v) :: rest => by
      by_cases h : ek = k
      · simp [findValue, firstMatch, h]
      · simp only [findValue, firstMatch, if_neg h, Option.map_map]
        rw [findValue_eq_firstMatch k rest]
        cases firstMatch k rest <;> rfl

theorem findValue_none_iff {K V : Type} [DecidableEq K] (k : K)
    (l : List (K × V)) : findValue k l = none ↔ ∀ e ∈ l, e.1 ≠ k := by
  rw [findValue_eq_firstMatch, Option.map_eq_none', firstMatch_none_iff]

theorem findValue_some_mem {K V : Type} [DecidableEq K] {k : K} :
    ∀ {l : List (K × V)} {v : V}, findValue k l = some v → (k, v) ∈ l
  | (ek, w) :: rest, v, h => by
      by_cases hek : ek = k
      · subst hek
        simp [findValue] at h
        subst h
        exact List.mem_cons_self _ _
      · simp [findValue, hek] at h
        exact List.mem_cons_of_mem _ (findValue_some_mem h)

theorem findValue_isSome_of_mem {K V : Type} [DecidableEq K] {k : K} :
    ∀ {l : List (K × V)} {v : V}, (k, v) ∈ l → ∃ w, findValue k l = some w
  | (ek, w) :: rest, v, h => by
      by_cases hek : ek = k
      · exact ⟨w, by simp [findValue, hek]⟩
      · rcases List.mem_cons.mp h with h1 | h2
        · exact absurd (congrArg Prod.fst h1).symm hek
        · obtain ⟨u, hu⟩ := findValue_isSome_of_mem h2
          exact ⟨u, by simp [findValue, hek, hu]⟩

theorem keys_nodup_value_eq {K V : Type} [DecidableEq K] {k : K} :
    ∀ {l : List (K × V)} {v w : V}, (l.map Prod.fst).Nodup →
      (k, v) ∈ l → (k, w) ∈ l → v = w
  | e :: rest, v, w, hnd, hv, hw => by
      rw [List.map_cons, List.nodup_cons] at hnd
      rcases List.mem_cons.mp hv with hv1 | hv2
      · rcases List.mem_cons.mp hw with hw1 | hw2
        · exact congrArg Prod.snd (hv1.trans hw1.symm)
        · exfalso
          apply hnd.1
          rw [← hv1]
          show k ∈ rest.map Prod.fst
          exact List.mem_map_of_mem Prod.fst hw2
      · rcases List.mem_cons.mp hw with hw1 | hw2
        · exfalso
          apply hnd.1
          rw [← hw1]
          show k ∈ rest.map Prod.fst
          exact List.mem_map_of_mem Prod.fst hv2
        · exact keys_nodup_value_eq hnd.2 hv2 hw2

theorem firstMatch_nth {K V : Type} [DecidableEq K] {k : K} :
    ∀ {l : List (K × V)} {p : Nat × V}, firstMatch k l = some p →
      nth? l p.1 = some (k, p.2)
  | (ek, w) :: rest, p, h => by
      by_cases hek : ek = k
      · subst hek
        simp [firstMatch] at h
        subst h
        rfl
      · simp only [firstMatch, if_neg hek, Option.map_eq_some'] at h
        obtain ⟨q, hq, hp⟩ := h
        subst hp
        show nth? rest q.1 = some (k, q.2)
        exact firstMatch_nth hq

theorem firstMatch_earlier {K V : Type} [DecidableEq K] {k : K} :
    ∀ {l : List (K × V)} {p : Nat × V}, firstMatch k l = some p →
      ∀ j, j < p.1 → ∀ e, nth? l j = some e → e.1 ≠ k
  | (ek, w) :: rest, p, h => by
      by_cases hek : ek = k
      · subst hek
        simp [firstMatch] at h
        subst h
        intro j hj
        exact absurd hj (by simp)
      · simp only [firstMatch, if_neg hek, Option.map_eq_some'] at h
        obtain ⟨q, hq, hp⟩ := h
        subst hp
        intro j hj e he
        cases j with
        | zero =>
            simp [nth?] at he
            rw [← he]
            exact hek
        | succ j =>
            exact firstMatch_earlier hq j (by simpa using hj) e he

theorem lastMatch_none_iff {K V : Type} [DecidableEq K] (k : K) :
    ∀ (l : List (K × V)), lastMatch k l = none ↔ ∀ e ∈ l, e.1 ≠ k
  | [] => by simp [lastMatch]
  | (ek, v) :: rest => by
      simp only [lastMatch]
      cases hr : lastMatch k rest with
      | some p =>
          simp only [reduceCtorEq, false_iff]
          intro hall
          rw [(lastMatch_none_iff k rest).mpr
            (fun e he => hall e (List.mem_cons_of_mem _ he))] at hr
          exact absurd hr (by simp)
      | none =>
          by_cases h : ek = k
          · simp [h]
          · simp only [if_neg h]
            constructor
            · intro _ e he
              rcases List.mem_cons.mp he with h1 | h2
              · rw [h1]
                exact h
              · exact (lastMatch_none_iff k rest).mp hr e h2
            · intro _
              trivial

theorem lastMatch_nth {K V : Type} [DecidableEq K] {k : K} :
    ∀ {l : List (K × V)} {p : Nat × V}, lastMatch k l = some p →
      nth? l p.1 = some (k, p.2)
  | (ek, w) :: rest, p, h => by
      simp only [lastMatch] at h
      cases hr : lastMatch k rest with
      | some q =>
          rw [hr] at h
          cases h
          show nth? rest q.1 = some (k, q.2)
          exact lastMatch_nth hr
      | none =>
          rw [hr] at h
          by_cases hek : ek = k
          · subst hek
            rw [if_pos rfl] at h
            cases h
            rfl
          · rw [if_neg hek] at h
            exact absurd h (by simp)

/-! ### modifyAt / set / swapRemove lemmas -/

theorem length_modifyAt {α : Type} : ∀ (l : List α) (i : Nat) (f : α → α),
    (modifyAt l i f).length = l.length
  | [], _, _ => rfl
  | x :: xs, 0, f => rfl
  | x :: xs, i + 1, f => by simp [modifyAt, length_modifyAt xs i f]

theorem nth?_modifyAt_self {α : Type} : ∀ (l : List α) (i : Nat) (f : α → α),
    i < l.length → nth? (modifyAt l i f) i = (nth? l i).map f
  | x :: xs, 0, f, _ => rfl
  | x :: xs, i + 1, f, h => nth?_modifyAt_self xs i f (by simpa using h)

theorem nth?_modifyAt_ne {α : Type} : ∀ (l : List α) (i j : Nat) (f : α → α),
    j ≠ i → nth? (modifyAt l i f) j = nth? l j
  | [], _, _, _, _ => rfl
  | x :: xs, 0, 0, f, h => absurd rfl h
  | x :: xs, 0, j + 1, f, h => rfl
  | x :: xs, i + 1, 0, f, h => rfl
  | x :: xs, i + 1, j + 1, f, h =>
      nth?_modifyAt_ne xs i j f (fun hji => h (congrArg Nat.succ hji))

theorem nth?_isSome_of_lt {α : Type} : ∀ (l : List α) (i : Nat),
    i < l.length → ∃ a, nth? l i = some a
  | x :: xs, 0, _ => ⟨x, rfl⟩
  | x :: xs, i + 1, h => nth?_isSome_of_lt xs i (by simpa using h)

theorem getD_modifyAt_self {α : Type} (l : List α) (i : Nat) (f : α → α)
    (d : α) (h : i < l.length) :
    (modifyAt l i f).getD i d = f (l.getD i d) := by
  obtain ⟨a, ha⟩ := nth?_isSome_of_lt l i h
  rw [getD_eq_nth?, getD_eq_nth?, nth?_modifyAt_self l i f h, ha]
  rfl

theorem getD_modifyAt_ne {α : Type} (l : List α) (i j : Nat) (f : α → α)
    (d : α) (h : j ≠ i) :
    (modifyAt l i f).getD j d = l.getD j d := by
  rw [getD_eq_nth?, getD_eq_nth?, nth?_modifyAt_ne l i j f h]

theorem nth_decomp {α : Type} : ∀ (l : List α) (i : Nat) (d : α),
    i < l.length → l = l.take i ++ l.getD i d :: l.drop (i + 1)
  | x :: xs, 0, d, _ => rfl
  | x :: xs, i + 1, d, h => by
      simp only [List.take_succ_cons, List.drop_succ_cons, List.getD_cons_succ,
        List.cons_append]
      rw [← nth_decomp xs i d (by simpa using h)]

theorem modifyAt_decomp {α : Type} : ∀ (l : List α) (i : Nat) (f : α → α)
    (d : α), i < l.length →
    modifyAt l i f = l.take i ++ f (l.getD i d) :: l.drop (i + 1)
  | x :: xs, 0, f, d, _ => rfl
  | x :: xs, i + 1, f, d, h => by
      simp only [modifyAt, List.take_succ_cons, List.drop_succ_cons,
        List.getD_cons_succ, List.cons_append]
      rw [← modifyAt_decomp xs i f d (by simpa using h)]

theorem swapRemove_perm {α : Type} : ∀ (l : List α) (i : Nat), i < l.length →
    List.Perm (swapRemove l i) (l.take i ++ l.drop (i + 1))
  | [], i, h => absurd h (by simp)
  | a :: rest, 0, h => by
      cases rest with
      | nil =>
          simp only [swapRemove, List.getLast?_singleton, List.set_cons_zero,
            List.dropLast_single]
          simp
      | cons b rs =>
          have hne : b :: rs ≠ [] := by simp
          have hL : (a :: b :: rs).getLast? = some ((b :: rs).getLast hne) := by
            rw [List.getLast?_cons_cons, List.getLast?_eq_getLast _ hne]
          simp only [swapRemove, hL, List.set_cons_zero, List.take_zero,
            List.drop_succ_cons, List.drop_zero, List.nil_append]
          rw [List.dropLast_cons_of_ne_nil hne]
          have h1 : List.Perm
              ((b :: rs).dropLast ++ [(b :: rs).getLast hne])
              ((b :: rs).getLast hne :: (b :: rs).dropLast) :=
            List.perm_append_singleton _ _
          rw [List.dropLast_append_getLast hne] at h1
          exact h1.symm
  | a :: rest, i + 1, h => by
      have hi : i < rest.length := by simpa using h
      have hne : rest ≠ [] := by
        intro hn
        rw [hn] at hi
        simp at hi
      have hL : (a :: rest).getLast? = some (rest.getLast hne) := by
        cases rest with
        | nil => exact absurd rfl hne
        | cons b rs =>
            rw [List.getLast?_cons_cons, List.getLast?_eq_getLast _ hne]
      have hLr : rest.getLast? = some (rest.getLast hne) :=
        List.getLast?_eq_getLast _ hne
      simp only [swapRemove, hL, hLr, List.set_cons_succ, List.take_succ_cons,
        List.drop_succ_cons, List.cons_append]
      have hsetne : rest.set i (rest.getLast hne) ≠ [] := by
        intro hnil
        have hlen := congrArg List.length hnil
        rw [List.length_set] at hlen
        simp only [List.length_nil] at hlen
        rw [hlen] at hi
        exact absurd hi (by simp)
      rw [List.dropLast_cons_of_ne_nil hsetne]
      exact List.Perm.cons a (by
        have := swapRemove_perm rest i hi
        simpa only [swapRemove, hLr] using this)

theorem map_fst_set {K V : Type} : ∀ (l : List (K × V)) (i : Nat) (k : K)
    (v w : V), nth? l i = some (k, w) →
    (l.set i (k, v)).map Prod.fst = l.map Prod.fst
  | e :: rest, 0, k, v, w, h => by
      have he : e = (k, w) := by simpa [nth?] using h
      subst he
      rw [List.set_cons_zero]
      simp
  | e :: rest, i + 1, k, v, w, h => by
      rw [List.set_cons_succ]
      simp only [List.map_cons]
      rw [map_fst_set rest i k v w h]

theorem findValue_set_first {K V : Type} [DecidableEq K] {k : K} {v : V} :
    ∀ {l : List (K × V)} {p : Nat × V}, firstMatch k l = some p →
      findValue k (l.set p.1 (k, v)) = some v
  | (ek, w) :: rest, p, h => by
      by_cases hek : ek = k
      · subst hek
        simp [firstMatch] at h
        subst h
        simp [findValue]
      · simp only [firstMatch, if_neg hek, Option.map_eq_some'] at h
        obtain ⟨q, hq, hp⟩ := h
        subst hp
        rw [List.set_cons_succ]
        simp only [findValue, if_neg hek]
        exact findValue_set_first hq

theorem findValue_set_ne {K V : Type} [DecidableEq K] {k k' : K} (hne : k' ≠ k) :
    ∀ (l : List (K × V)) (i : Nat) (v w : V), nth? l i = some (k, w) →
      findValue k' (l.set i (k, v)) = findValue k' l
  | (ek, u) :: rest, 0, v, w, h => by
      have he : ek = k ∧ u = w := by simpa [nth?] using h
      obtain ⟨h1, _⟩ := he
      subst h1
      rw [List.set_cons_zero]
      have h2 : ¬ ek = k' := fun hkk => hne hkk.symm
      simp [findValue, h2]
  | (ek, u) :: rest, i + 1, v, w, h => by
      rw [List.set_cons_succ]
      by_cases hek : ek = k'
      · simp [findValue, hek]
      · simp only [findValue, if_neg hek]
        exact findValue_set_ne hne rest i v w h

theorem findValue_append_left {K V : Type} [DecidableEq K] {k : K} :
    ∀ {l r : List (K × V)} {v : V}, findValue k l = some v →
      findValue k (l ++ r) = some v
  | (ek, w) :: rest, r, v, h => by
      by_cases hek : ek = k
      · simp [findValue, hek] at h ⊢
        exact h
      · simp only [findValue, if_neg hek, List.cons_append] at h ⊢
        exact findValue_append_left h

theorem findValue_append_free {K V : Type} [DecidableEq K] {k : K} :
    ∀ {l : List (K × V)} (r : List (K × V)), (∀ e ∈ l, e.1 ≠ k) →
      findValue k (l ++ r) = findValue k r
  | [], r, _ => rfl
  | (ek, w) :: rest, r, h => by
      have hek : ek ≠ k := h (ek, w) (List.mem_cons_self _ _)
      simp only [List.cons_append, findValue, if_neg hek]
      exact findValue_append_free r (fun e he => h e (List.mem_cons_of_mem _ he))

theorem findValue_concat_ne {K V : Type} [DecidableEq K] {k k' : K}
    (hne : k' ≠ k) (v : V) :
    ∀ (l : List (K × V)), findValue k' (l ++ [(k, v)]) = findValue k' l
  | [] => by
      have : ¬ k = k' := fun hkk => hne hkk.symm
      simp [findValue, this]
  | (ek, w) :: rest => by
      by_cases hek : ek = k'
      · simp [findValue, hek]
      · simp only [List.cons_append, findValue, if_neg hek]
        exact findValue_concat_ne hne v rest

theorem flatten_replicate_nil {α : Type} : ∀ (n : Nat),
    (List.replicate n ([] : List α)).flatten = []
  | 0 => rfl
  | n + 1 => by simp [List.replicate_succ, flatten_replicate_nil n]

theorem getD_replicate_nil {α : Type} : ∀ (n i : Nat),
    (List.replicate n ([] : List α)).getD i [] = []
  | 0, _ => by simp
  | n + 1, 0 => rfl
  | n + 1, i + 1 => by
      rw [List.replicate_succ, List.getD_cons_succ]
      exact getD_replicate_nil n i

/-! ### Bucket-store lemmas -/

theorem nth?_of_mem {α : Type} : ∀ {l : List α} {a : α}, a ∈ l →
    ∃ i, nth? l i = some a
  | x :: xs, a, h => by
      rcases List.mem_cons.mp h with h1 | h2
      · exact ⟨0, by simp [nth?, h1]⟩
      · obtain ⟨i, hi⟩ := nth?_of_mem h2
        exact ⟨i + 1, hi⟩

theorem bucket_decomp {K V : Type} (t : HashTable K V) (i : Nat)
    (h : i < t.buckets.length) :
    t.entries =
      (t.buckets.take i).flatten ++
        (t.bucketAt i ++ (t.buckets.drop (i + 1)).flatten) := by
  show t.buckets.flatten = _
  conv =>
    left
    rw [nth_decomp t.buckets i [] h]
  rw [List.flatten_append, List.flatten_cons]
  rfl

theorem bucket_sublist_entries {K V : Type} (t : HashTable K V) (i : Nat)
    (h : i < t.buckets.length) : List.Sublist (t.bucketAt i) t.entries := by
  rw [bucket_decomp t i h]
  exact (List.sublist_append_left _ _).trans (List.sublist_append_right _ _)

theorem mem_bucket_mem_entries {K V : Type} {t : HashTable K V} {i : Nat}
    (h : i < t.buckets.length) {e : K × V} (he : e ∈ t.bucketAt i) :
    e ∈ t.entries :=
  (bucket_sublist_entries t i h).mem he

theorem mem_entries_bucket {K V : Type} {t : HashTable K V}
    (hg : t.goodBuckets) {e : K × V} (he : e ∈ t.entries) :
    e ∈ t.bucketAt (t.hasher e.1 % t.buckets.length) := by
  obtain ⟨l, hl, hel⟩ := List.mem_flatten.mp he
  obtain ⟨j, hj⟩ := nth?_of_mem hl
  have hjlt : j < t.buckets.length := nth?_lt hj
  have hbj : t.bucketAt j = l := by
    show t.buckets.getD j [] = l
    rw [getD_eq_nth?, hj]
    rfl
  have := hg j hjlt e (hbj ▸ hel)
  rw [this, hbj]
  exact hel

theorem getCore_some_mem {K V : Type} [DecidableEq K] {t : HashTable K V}
    {k : K} {v : V} (hc : 0 < t.buckets.length)
    (h : t.getCore k = some v) : (k, v) ∈ t.entries :=
  mem_bucket_mem_entries (Nat.mod_lt _ hc) (findValue_some_mem h)

theorem getCore_none_iff {K V : Type} [DecidableEq K] {t : HashTable K V}
    {k : K} (hg : t.goodBuckets) :
    t.getCore k = none ↔ ∀ e ∈ t.entries, e.1 ≠ k := by
  constructor
  · intro hnone e he hk
    have hbk : e ∈ t.bucketAt (t.hasher k % t.buckets.length) := by
      have := mem_entries_bucket hg he
      rw [hk] at this
      exact this
    exact (findValue_none_iff k _).mp hnone e hbk hk
  · intro hall
    apply (findValue_none_iff k _).mpr
    intro e he
    rcases Nat.eq_zero_or_pos t.buckets.length with hz | hp
    · exfalso
      have : t.buckets = [] := List.length_eq_zero.mp hz
      rw [HashTable.bucketAt, this] at he
      simp at he
    · exact hall e (mem_bucket_mem_entries (Nat.mod_lt _ hp) he)

theorem getCore_eq_of_mem {K V : Type} [DecidableEq K] {t : HashTable K V}
    {k : K} {v : V} (hinv : t.Inv) (hc : 0 < t.buckets.length)
    (hmem : (k, v) ∈ t.entries) : t.getCore k = some v := by
  have hbk : (k, v) ∈ t.bucketAt (t.hasher k % t.buckets.length) :=
    mem_entries_bucket hinv.1 hmem
  obtain ⟨w, hw⟩ := findValue_isSome_of_mem hbk
  have hmemw : (k, w) ∈ t.entries :=
    mem_bucket_mem_entries (Nat.mod_lt _ hc) (findValue_some_mem hw)
  show findValue k (t.bucketAt (t.hasher k % t.buckets.length)) = some v
  rw [hw, keys_nodup_value_eq hinv.2 hmemw hmem]

theorem getCore_congr {K V : Type} [DecidableEq K] {t t' : HashTable K V}
    (hinv : t.Inv) (hinv' : t'.Inv) (hc : 0 < t.buckets.length)
    (hc' : 0 < t'.buckets.length)
    (hperm : List.Perm t.entries t'.entries) (k : K) :
    t'.getCore k = t.getCore k := by
  cases hv : t.getCore k with
  | some v =>
      exact getCore_eq_of_mem hinv' hc'
        (hperm.mem_iff.mp (getCore_some_mem hc hv))
  | none =>
      cases hv' : t'.getCore k with
      | none => rfl
      | some v' =>
          exfalso
          have hmem : (k, v') ∈ t.entries :=
            hperm.mem_iff.mpr (getCore_some_mem hc' hv')
          exact (getCore_none_iff hinv.1).mp hv (k, v') hmem rfl

/-! ### Resize lemmas -/

theorem perm_push_middle {α : Type} (P c S : List α) (e : α) :
    List.Perm (P ++ ((c ++ [e]) ++ S)) ((P ++ (c ++ S)) ++ [e]) := by
  simp only [List.append_assoc]
  exact List.Perm.append_left _ (List.Perm.append_left _ List.perm_append_comm)

theorem pushAll_spec {K V : Type} (h : K → Nat) (n : Nat) (hn : 0 < n) :
    ∀ (l : List (K × V)) (bs : List (List (K × V))), bs.length = n →
      (∀ i, i < n → ∀ e ∈ bs.getD i [], h e.1 % n = i) →
      (pushAll h n l bs).length = n ∧
        List.Perm (pushAll h n l bs).flatten (bs.flatten ++ l) ∧
        (∀ i, i < n → ∀ e ∈ (pushAll h n l bs).getD i [], h e.1 % n = i)
  | [], bs, hlen, hgood => by
      refine ⟨hlen, ?_, hgood⟩
      simp [pushAll]
  | e :: l, bs, hlen, hgood => by
      have hidx : h e.1 % n < bs.length := by
        rw [hlen]
        exact Nat.mod_lt _ hn
      have hstep : pushAll h n (e :: l) bs =
          pushAll h n l (modifyAt bs (h e.1 % n) (fun c => c ++ [e])) := rfl
      have hlen2 : (modifyAt bs (h e.1 % n) (fun c => c ++ [e])).length = n := by
        rw [length_modifyAt, hlen]
      have hgood2 : ∀ i, i < n →
          ∀ x ∈ (modifyAt bs (h e.1 % n) (fun c => c ++ [e])).getD i [],
            h x.1 % n = i := by
        intro i hi x hx
        by_cases hie : i = h e.1 % n
        · subst hie
          rw [getD_modifyAt_self bs _ _ [] hidx] at hx
          rcases List.mem_append.mp hx with h1 | h2
          · exact hgood _ hi x h1
          · rw [List.mem_singleton.mp h2]
        · rw [getD_modifyAt_ne bs _ i _ [] hie] at hx
          exact hgood i hi x hx
      obtain ⟨hl1, hl2, hl3⟩ := pushAll_spec h n hn l _ hlen2 hgood2
      refine ⟨hstep ▸ hl1, ?_, hstep ▸ hl3⟩
      rw [hstep]
      have hflat : (modifyAt bs (h e.1 % n) (fun c => c ++ [e])).flatten =
          (bs.take (h e.1 % n)).flatten ++
            ((bs.getD (h e.1 % n) [] ++ [e]) ++ (bs.drop (h e.1 % n + 1)).flatten) := by
        rw [modifyAt_decomp bs (h e.1 % n) _ [] hidx, List.flatten_append,
          List.flatten_cons]
      have hflat0 : bs.flatten =
          (bs.take (h e.1 % n)).flatten ++
            (bs.getD (h e.1 % n) [] ++ (bs.drop (h e.1 % n + 1)).flatten) := by
        conv =>
          left
          rw [nth_decomp bs (h e.1 % n) [] hidx]
        rw [List.flatten_append, List.flatten_cons]
      refine hl2.trans ?_
      rw [hflat, hflat0]
      have hperm := perm_push_middle (bs.take (h e.1 % n)).flatten
        (bs.getD (h e.1 % n) []) (bs.drop (h e.1 % n + 1)).flatten e
      have := hperm.append_right l
      refine this.trans ?_
      simp only [List.append_assoc, List.singleton_append]
      exact List.Perm.refl _

theorem resize_buckets_eq {K V : Type} (t : HashTable K V) :
    (t.resize).buckets =
      pushAll t.hasher (t.buckets.length * 2) t.entries
        (List.replicate (t.buckets.length * 2) []) := rfl

theorem resize_spec {K V : Type} [DecidableEq K] (t : HashTable K V) :
    (t.resize).total_entries = t.total_entries ∧
      (t.resize).hasher = t.hasher ∧
      (t.resize).buckets.length = t.buckets.length * 2 ∧
      List.Perm (t.resize).entries t.entries ∧
      (t.resize).goodBuckets := by
  rcases Nat.eq_zero_or_pos t.buckets.length with hz | hp
  · have hbs : t.buckets = [] := List.length_eq_zero.mp hz
    have hent : t.entries = [] := by
      show t.buckets.flatten = []
      rw [hbs]
      rfl
    refine ⟨rfl, rfl, ?_, ?_, ?_⟩
    · rw [resize_buckets_eq, hent, hz]
      rfl
    · show List.Perm (t.resize).buckets.flatten t.entries
      rw [resize_buckets_eq, hent, hz]
      exact List.Perm.refl _
    · intro i hi
      rw [resize_buckets_eq, hent, hz] at hi
      simp [pushAll, List.replicate] at hi
  · have hn : 0 < t.buckets.length * 2 := by omega
    obtain ⟨h1, h2, h3⟩ := pushAll_spec t.hasher (t.buckets.length * 2) hn
      t.entries (List.replicate (t.buckets.length * 2) [])
      (by rw [List.length_replicate])
      (by
        intro i hi e he
        rw [getD_replicate_nil] at he
        simp at he)
    refine ⟨rfl, rfl, ?_, ?_, ?_⟩
    · rw [resize_buckets_eq]
      exact h1
    · show List.Perm (t.resize).buckets.flatten t.entries
      rw [resize_buckets_eq]
      refine h2.trans ?_
      rw [flatten_replicate_nil]
      exact List.Perm.refl _
    · intro i hi e he
      have hb : (t.resize).bucketAt i =
          (pushAll t.hasher (t.buckets.length * 2) t.entries
            (List.replicate (t.buckets.length * 2) [])).getD i [] := by
        show (t.resize).buckets.getD i [] = _
        rw [resize_buckets_eq]
      have hi2 : i < t.buckets.length * 2 := by
        have : i < (t.resize).buckets.length := hi
        rw [resize_buckets_eq, h1] at this
        exact this
      show t.hasher e.1 % (t.resize).buckets.length = i
      rw [resize_buckets_eq, h1]
      rw [hb] at he
      exact h3 i hi2 e he

/-! ### The not-found insert path -/

theorem with_capacity_inv {K V : Type} [DecidableEq K] (hasher : K → Nat)
    (c : Nat) : (HashTable.with_capacity hasher c : HashTable K V).Inv := by
  constructor
  · intro i hi e he
    have : (HashTable.with_capacity hasher c : HashTable K V).bucketAt i = [] := by
      show (List.replicate c ([] : List (K × V))).getD i [] = []
      exact getD_replicate_nil c i
    rw [this] at he
    simp at he
  · show ((List.replicate c ([] : List (K × V))).flatten.map Prod.fst).Nodup
    rw [flatten_replicate_nil]
    exact List.nodup_nil

theorem push_entry_spec {K V : Type} [DecidableEq K] (t1 : HashTable K V)
    (k : K) (v : V) (t2 : HashTable K V)
    (hg : t1.goodBuckets) (hnd : t1.nodupKeys) (hc : 0 < t1.buckets.length)
    (hfree : ∀ e ∈ t1.entries, e.1 ≠ k)
    (ht2 : t2 = HashTable.mk
      (modifyAt t1.buckets (t1.hasher k % t1.buckets.length)
        (fun c => c ++ [(k, v)]))
      (t1.total_entries + 1) t1.hasher) :
    t2.buckets.length = t1.buckets.length ∧
      List.Perm t2.entries (t1.entries ++ [(k, v)]) ∧
      t2.goodBuckets ∧ t2.nodupKeys ∧
      t2.getCore k = some v ∧
      (∀ k2, k2 ≠ k → t2.getCore k2 = t1.getCore k2) ∧
      t2.valueAt (t1.hasher k % t1.buckets.length,
        (t1.bucketAt (t1.hasher k % t1.buckets.length)).length) = some v ∧
      (∀ f, (t2.writeAt (t1.hasher k % t1.buckets.length,
        (t1.bucketAt (t1.hasher k % t1.buckets.length)).length) f).getCore k
          = some (f v)) := by
  subst ht2
  have hi : t1.hasher k % t1.buckets.length < t1.buckets.length :=
    Nat.mod_lt _ hc
  have hbfree : ∀ e ∈ t1.bucketAt (t1.hasher k % t1.buckets.length), e.1 ≠ k :=
    fun e he => hfree e (mem_bucket_mem_entries hi he)
  have hlen : (modifyAt t1.buckets (t1.hasher k % t1.buckets.length)
      (fun c => c ++ [(k, v)])).length = t1.buckets.length :=
    length_modifyAt _ _ _
  have hbself : (modifyAt t1.buckets (t1.hasher k % t1.buckets.length)
      (fun c => c ++ [(k, v)])).getD (t1.hasher k % t1.buckets.length) [] =
      t1.bucketAt (t1.hasher k % t1.buckets.length) ++ [(k, v)] :=
    getD_modifyAt_self _ _ _ _ hi
  have hbne : ∀ i2, i2 ≠ t1.hasher k % t1.buckets.length →
      (modifyAt t1.buckets (t1.hasher k % t1.buckets.length)
        (fun c => c ++ [(k, v)])).getD i2 [] = t1.bucketAt i2 :=
    fun i2 hne => getD_modifyAt_ne _ _ _ _ _ hne
  have hperm : List.Perm
      (modifyAt t1.buckets (t1.hasher k % t1.buckets.length)
        (fun c => c ++ [(k, v)])).flatten
      (t1.entries ++ [(k, v)]) := by
    rw [modifyAt_decomp t1.buckets _ _ [] hi, List.flatten_append,
      List.flatten_cons]
    have hdec := bucket_decomp t1 (t1.hasher k % t1.buckets.length) hi
    rw [hdec]
    have := perm_push_middle
      (t1.buckets.take (t1.hasher k % t1.buckets.length)).flatten
      (t1.bucketAt (t1.hasher k % t1.buckets.length))
      ((t1.buckets.drop (t1.hasher k % t1.buckets.length + 1)).flatten) (k, v)
    refine List.Perm.trans ?_ this
    rw [HashTable.bucketAt]
  have hknotin : k ∉ t1.entries.map Prod.fst := by
    intro hk
    obtain ⟨e, he, hek⟩ := List.mem_map.mp hk
    exact hfree e he hek
  have hnd2 : ((modifyAt t1.buckets (t1.hasher k % t1.buckets.length)
      (fun c => c ++ [(k, v)])).flatten.map Prod.fst).Nodup := by
    have h1 : List.Perm
        ((modifyAt t1.buckets (t1.hasher k % t1.buckets.length)
          (fun c => c ++ [(k, v)])).flatten.map Prod.fst)
        ((t1.entries ++ [(k, v)]).map Prod.fst) := hperm.map Prod.fst
    have h2 : (t1.entries ++ [(k, v)]).map Prod.fst =
        t1.entries.map Prod.fst ++ [k] := by simp
    have h3 : List.Perm (t1.entries.map Prod.fst ++ [k])
        (k :: t1.entries.map Prod.fst) := List.perm_append_singleton _ _
    rw [h2] at h1
    have h4 := h1.trans h3
    rw [h4.nodup_iff, List.nodup_cons]
    exact ⟨hknotin, hnd⟩
  refine ⟨hlen, hperm, ?_, hnd2, ?_, ?_, ?_, ?_⟩
  · -- goodBuckets
    intro i2 hi2 e he
    show t1.hasher e.1 % _ = i2
    have hi2' : i2 < t1.buckets.length := by rwa [hlen] at hi2
    rw [hlen]
    by_cases hie : i2 = t1.hasher k % t1.buckets.length
    · subst hie
      have he2 : e ∈ t1.bucketAt (t1.hasher k % t1.buckets.length) ++ [(k, v)] := by
        have he' : e ∈ (modifyAt t1.buckets (t1.hasher k % t1.buckets.length)
            (fun c => c ++ [(k, v)])).getD (t1.hasher k % t1.buckets.length) [] := he
        rwa [hbself] at he'
      rcases List.mem_append.mp he2 with h1 | h2
      · exact hg _ hi2' e h1
      · rw [List.mem_singleton.mp h2]
    · have he2 : e ∈ t1.bucketAt i2 := by
        have he' : e ∈ (modifyAt t1.buckets (t1.hasher k % t1.buckets.length)
            (fun c => c ++ [(k, v)])).getD i2 [] := he
        rwa [hbne i2 hie] at he'
      exact hg i2 hi2' e he2
  · -- getCore k = some v
    show findValue k ((modifyAt t1.buckets _ _).getD
      (t1.hasher k % (modifyAt t1.buckets _ _).length) []) = some v
    rw [hlen, hbself, findValue_append_free _ hbfree]
    simp [findValue]
  · -- other keys unchanged
    intro k2 hne
    show findValue k2 ((modifyAt t1.buckets _ _).getD
        (t1.hasher k2 % (modifyAt t1.buckets _ _).length) []) =
      findValue k2 (t1.bucketAt (t1.hasher k2 % t1.buckets.length))
    rw [hlen]
    by_cases hie : t1.hasher k2 % t1.buckets.length =
        t1.hasher k % t1.buckets.length
    · rw [hie, hbself, findValue_concat_ne hne]
    · rw [hbne _ hie]
  · -- valueAt of the returned position
    show (nth? (modifyAt t1.buckets _ _)
        (t1.hasher k % t1.buckets.length)).bind _ = some v
    obtain ⟨a, ha⟩ := nth?_isSome_of_lt t1.buckets _ hi
    have hab : a = t1.bucketAt (t1.hasher k % t1.buckets.length) := by
      show a = t1.buckets.getD _ []
      rw [getD_eq_nth?, ha]
      rfl
    rw [nth?_modifyAt_self _ _ _ hi, ha]
    simp only [Option.map_some', Option.some_bind, hab]
    rw [nth?_concat_self]
    rfl
  · -- writing through the returned position is visible to get
    intro f
    show findValue k ((modifyAt (modifyAt t1.buckets _ (fun c => c ++ [(k, v)]))
        (t1.hasher k % t1.buckets.length) _).getD
      (t1.hasher k % (modifyAt (modifyAt t1.buckets _ _) _ _).length) []) =
      some (f v)
    rw [length_modifyAt, hlen]
    have hi2 : t1.hasher k % t1.buckets.length <
        (modifyAt t1.buckets (t1.hasher k % t1.buckets.length)
          (fun c => c ++ [(k, v)])).length := by rwa [hlen]
    rw [getD_modifyAt_self _ _ _ _ hi2, hbself]
    have hjlt : (t1.bucketAt (t1.hasher k % t1.buckets.length)).length <
        (t1.bucketAt (t1.hasher k % t1.buckets.length) ++ [(k, v)]).length := by
      simp
    rw [modifyAt_decomp _ _ _ (k, v) hjlt]
    rw [List.take_left]
    have hgd : (t1.bucketAt (t1.hasher k % t1.buckets.length) ++ [(k, v)]).getD
        (t1.bucketAt (t1.hasher k % t1.buckets.length)).length (k, v) = (k, v) := by
      rw [getD_eq_nth?, nth?_concat_self]
      rfl
    rw [hgd]
    have hdrop : (t1.bucketAt (t1.hasher k % t1.buckets.length) ++ [(k, v)]).drop
        ((t1.bucketAt (t1.hasher k % t1.buckets.length)).length + 1) = [] := by
      apply List.drop_eq_nil_of_le
      simp
    rw [hdrop, findValue_append_free _ hbfree]
    simp [findValue]

theorem _insert_eq_grow {K V : Type} (t : HashTable K V) (k : K) (v : V)
    (hash : Nat) (hcond : 4 * (t.total_entries + 1) > 3 * t.buckets.length)
    (hne : ¬ (t.resize).buckets.length = 0) :
    t._insert k v hash = Except.ok
      ((hash % (t.resize).buckets.length,
        ((t.resize).bucketAt (hash % (t.resize).buckets.length)).length),
       HashTable.mk
        (modifyAt (t.resize).buckets (hash % (t.resize).buckets.length)
          (fun c => c ++ [(k, v)]))
        ((t.resize).total_entries + 1) (t.resize).hasher) := by
  simp only [HashTable._insert]
  rw [if_pos hcond, if_neg hne]

theorem _insert_eq_nogrow {K V : Type} (t : HashTable K V) (k : K) (v : V)
    (hash : Nat) (hcond : ¬ 4 * (t.total_entries + 1) > 3 * t.buckets.length)
    (hne : ¬ t.buckets.length = 0) :
    t._insert k v hash = Except.ok
      ((hash % t.buckets.length,
        (t.bucketAt (hash % t.buckets.length)).length),
       HashTable.mk
        (modifyAt t.buckets (hash % t.buckets.length) (fun c => c ++ [(k, v)]))
        (t.total_entries + 1) t.hasher) := by
  simp only [HashTable._insert]
  rw [if_neg hcond, if_neg hne]

theorem insertNew_spec {K V : Type} [DecidableEq K] (t : HashTable K V)
    (k : K) (v : V) (hinv : t.Inv) (hc : 0 < t.buckets.length)
    (habs : t.getCore k = none) :
    ∃ j t2, t._insert k v (t.hasher k) =
        Except.ok ((t.hasher k % t2.buckets.length, j), t2) ∧
      t2.buckets.length =
        (if 4 * (t.total_entries + 1) > 3 * t.buckets.length
          then t.buckets.length * 2 else t.buckets.length) ∧
      t2.total_entries = t.total_entries + 1 ∧
      t2.hasher = t.hasher ∧
      List.Perm t2.entries (t.entries ++ [(k, v)]) ∧
      t2.Inv ∧
      t2.getCore k = some v ∧
      (∀ k2, k2 ≠ k → t2.getCore k2 = t.getCore k2) ∧
      t2.valueAt (t.hasher k % t2.buckets.length, j) = some v ∧
      (∀ f, (t2.writeAt (t.hasher k % t2.buckets.length, j) f).getCore k
        = some (f v)) := by
  have hfreeT : ∀ e ∈ t.entries, e.1 ≠ k := (getCore_none_iff hinv.1).mp habs
  by_cases hcond : 4 * (t.total_entries + 1) > 3 * t.buckets.length
  · obtain ⟨r1, r2, r3, r4, r5⟩ := resize_spec t
    have hc1 : 0 < (t.resize).buckets.length := by
      rw [r3]
      omega
    have hnd1 : (t.resize).nodupKeys := by
      show ((t.resize).entries.map Prod.fst).Nodup
      rw [((r4.map Prod.fst)).nodup_iff]
      exact hinv.2
    have hfree1 : ∀ e ∈ (t.resize).entries, e.1 ≠ k :=
      fun e he => hfreeT e (r4.subset he)
    obtain ⟨p1, p2, p3, p4, p5, p6, p7, p8⟩ :=
      push_entry_spec (t.resize) k v _ r5 hnd1 hc1 hfree1 rfl
    refine ⟨((t.resize).bucketAt
      ((t.resize).hasher k % (t.resize).buckets.length)).length,
      _, ?_, ?_, ?_, ?_, ?_, ⟨p3, p4⟩, ?_, ?_, ?_, ?_⟩
    · rw [_insert_eq_grow t k v (t.hasher k) hcond (by omega)]
      rw [p1, r2]
    · rw [p1, r3, if_pos hcond]
    · show (t.resize).total_entries + 1 = t.total_entries + 1
      rw [r1]
    · show (t.resize).hasher = t.hasher
      exact r2
    · exact p2.trans (r4.append_right _)
    · exact p5
    · intro k2 hne2
      rw [p6 k2 hne2]
      exact getCore_congr hinv ⟨r5, hnd1⟩ hc hc1 r4.symm k2
    · rw [p1, r2]
      exact p7
    · intro f
      rw [p1, r2]
      exact p8 f
  · have hfree1 : ∀ e ∈ t.entries, e.1 ≠ k := hfreeT
    obtain ⟨p1, p2, p3, p4, p5, p6, p7, p8⟩ :=
      push_entry_spec t k v _ hinv.1 hinv.2 hc hfree1 rfl
    refine ⟨(t.bucketAt (t.hasher k % t.buckets.length)).length,
      HashTable.mk (modifyAt t.buckets (t.hasher k % t.buckets.length)
        (fun c => c ++ [(k, v)])) (t.total_entries + 1) t.hasher,
      ?_, ?_, rfl, rfl, p2, ⟨p3, p4⟩, p5, p6, ?_, ?_⟩
    · rw [_insert_eq_nogrow t k v (t.hasher k) hcond (by omega)]
      rw [p1]
    · rw [p1, if_neg hcond]
    · rw [p1]
      exact p7
    · intro f
      rw [p1]
      exact p8 f

theorem insert_fresh_spec {K V : Type} [DecidableEq K] (t : HashTable K V)
    (k : K) (v : V) (hinv : t.Inv) (hc : 0 < t.buckets.length)
    (habs : t.getCore k = none) :
    ∃ t2, t.insert k v = Except.ok (none, t2) ∧
      t2.buckets.length =
        (if 4 * (t.total_entries + 1) > 3 * t.buckets.length
          then t.buckets.length * 2 else t.buckets.length) ∧
      t2.total_entries = t.total_entries + 1 ∧
      t2.hasher = t.hasher ∧
      List.Perm t2.entries (t.entries ++ [(k, v)]) ∧
      t2.Inv ∧
      t2.getCore k = some v ∧
      (∀ k2, k2 ≠ k → t2.getCore k2 = t.getCore k2) := by
  have hfm : firstMatch k (t.bucketAt (t.hasher k % t.buckets.length)) = none := by
    have h2 : findValue k (t.bucketAt (t.hasher k % t.buckets.length)) = none := habs
    rw [findValue_eq_firstMatch] at h2
    exact Option.map_eq_none'.mp h2
  obtain ⟨j, t2, he, hlen, htot, hhash, hperm, hinv2, hget, hother, _, _⟩ :=
    insertNew_spec t k v hinv hc habs
  refine ⟨t2, ?_, hlen, htot, hhash, hperm, hinv2, hget, hother⟩
  show (if t.buckets.length = 0 then Except.error () else _) = _
  rw [if_neg (by omega)]
  rw [hfm, he]
  rfl

theorem insert_found_spec {K V : Type} [DecidableEq K] (t : HashTable K V)
    (k : K) (vnew : V) (hc : 0 < t.buckets.length) (pos : Nat) (vold : V)
    (hfm : firstMatch k (t.bucketAt (t.hasher k % t.buckets.length)) =
      some (pos, vold)) :
    ∃ t2, t.insert k vnew = Except.ok (some vold, t2) ∧
      t2.buckets.length = t.buckets.length ∧
      t2.total_entries = t.total_entries ∧
      t2.hasher = t.hasher ∧
      t2.getCore k = some vnew ∧
      (∀ k2, k2 ≠ k → t2.getCore k2 = t.getCore k2) ∧
      t2.entries.map Prod.fst = t.entries.map Prod.fst ∧
      (t.goodBuckets → t2.goodBuckets) := by
  have hi : t.hasher k % t.buckets.length < t.buckets.length := Nat.mod_lt _ hc
  have hnth : nth? (t.bucketAt (t.hasher k % t.buckets.length)) pos =
      some (k, vold) := firstMatch_nth hfm
  have hposlt : pos < (t.bucketAt (t.hasher k % t.buckets.length)).length :=
    nth?_lt hnth
  refine ⟨HashTable.mk (modifyAt t.buckets (t.hasher k % t.buckets.length)
    (fun c => c.set pos (k, vnew))) t.total_entries t.hasher, ?_,
    length_modifyAt _ _ _, rfl, rfl, ?_, ?_, ?_, ?_⟩
  · show (if t.buckets.length = 0 then Except.error () else _) = _
    rw [if_neg (by omega), hfm]
  · show findValue k ((modifyAt t.buckets (t.hasher k % t.buckets.length)
        (fun c => c.set pos (k, vnew))).getD
      (t.hasher k % (modifyAt t.buckets (t.hasher k % t.buckets.length)
        (fun c => c.set pos (k, vnew))).length) []) = some vnew
    rw [length_modifyAt, getD_modifyAt_self _ _ _ _ hi]
    exact findValue_set_first hfm
  · intro k2 hne
    show findValue k2 ((modifyAt t.buckets (t.hasher k % t.buckets.length)
        (fun c => c.set pos (k, vnew))).getD
      (t.hasher k2 % (modifyAt t.buckets (t.hasher k % t.buckets.length)
        (fun c => c.set pos (k, vnew))).length) []) =
      findValue k2 (t.bucketAt (t.hasher k2 % t.buckets.length))
    rw [length_modifyAt]
    by_cases hie : t.hasher k2 % t.buckets.length =
        t.hasher k % t.buckets.length
    · rw [hie, getD_modifyAt_self _ _ _ _ hi]
      exact findValue_set_ne hne _ pos vnew vold hnth
    · rw [getD_modifyAt_ne _ _ _ _ _ hie]
      rfl
  · show (modifyAt t.buckets (t.hasher k % t.buckets.length)
        (fun c => c.set pos (k, vnew))).flatten.map Prod.fst =
      t.entries.map Prod.fst
    rw [modifyAt_decomp t.buckets _ _ [] hi, List.flatten_append,
      List.flatten_cons, bucket_decomp t _ hi]
    simp only [List.map_append]
    rw [map_fst_set (t.buckets.getD (t.hasher k % t.buckets.length) [])
      pos k vnew vold hnth]
    rfl
  · intro hg i2 hi2 e he
    show t.hasher e.1 % _ = i2
    have hlen2 : (modifyAt t.buckets (t.hasher k % t.buckets.length)
        (fun c => c.set pos (k, vnew))).length = t.buckets.length :=
      length_modifyAt _ _ _
    have hi2' : i2 < t.buckets.length := by
      have : i2 < (modifyAt t.buckets (t.hasher k % t.buckets.length)
          (fun c => c.set pos (k, vnew))).length := hi2
      rwa [hlen2] at this
    rw [hlen2]
    by_cases hie : i2 = t.hasher k % t.buckets.length
    · subst hie
      have he2 : e ∈ (t.bucketAt (t.hasher k % t.buckets.length)).set pos
          (k, vnew) := by
        have he' : e ∈ (modifyAt t.buckets (t.hasher k % t.buckets.length)
            (fun c => c.set pos (k, vnew))).getD
          (t.hasher k % t.buckets.length) [] := he
        rwa [getD_modifyAt_self _ _ _ _ hi] at he'
      rcases List.mem_or_eq_of_mem_set he2 with h1 | h2
      · exact hg _ hi2' e h1
      · rw [h2]
    · have he2 : e ∈ t.bucketAt i2 := by
        have he' : e ∈ (modifyAt t.buckets (t.hasher k % t.buckets.length)
            (fun c => c.set pos (k, vnew))).getD i2 [] := he
        rwa [getD_modifyAt_ne _ _ _ _ _ hie] at he'
      exact hg i2 hi2' e he2

/-! ### Remove specs -/

theorem remove_absent_spec {K V : Type} [DecidableEq K] (t : HashTable K V)
    (k : K) (hc : 0 < t.buckets.length) (habs : t.getCore k = none) :
    t.remove k = Except.ok (none, t) := by
  have hall : ∀ e ∈ t.bucketAt (t.hasher k % t.buckets.length), e.1 ≠ k :=
    (findValue_none_iff k _).mp habs
  have hlm : lastMatch k (t.bucketAt (t.hasher k % t.buckets.length)) = none :=
    (lastMatch_none_iff k _).mpr hall
  show (if t.buckets.length = 0 then Except.error () else _) = _
  rw [if_neg (by omega), hlm]

theorem remove_found_spec {K V : Type} [DecidableEq K] (t : HashTable K V)
    (k : K) (v : V) (hinv : t.Inv) (hc : 0 < t.buckets.length)
    (hget : t.getCore k = some v) :
    ∃ t2, t.remove k = Except.ok (some v, t2) ∧
      t2.buckets.length = t.buckets.length ∧
      t2.total_entries = t.total_entries ∧
      t2.hasher = t.hasher ∧
      t2.getCore k = none ∧
      (∀ k2, k2 ≠ k → t2.getCore k2 = t.getCore k2) ∧
      t2.Inv := by
  have hi : t.hasher k % t.buckets.length < t.buckets.length := Nat.mod_lt _ hc
  have hmemc : (k, v) ∈ t.bucketAt (t.hasher k % t.buckets.length) :=
    findValue_some_mem hget
  have hnodc : ((t.bucketAt (t.hasher k % t.buckets.length)).map Prod.fst).Nodup :=
    ((bucket_sublist_entries t _ hi).map Prod.fst).nodup hinv.2
  cases hlm : lastMatch k (t.bucketAt (t.hasher k % t.buckets.length)) with
  | none => exact absurd rfl ((lastMatch_none_iff k _).mp hlm (k, v) hmemc)
  | some p =>
      have hnth : nth? (t.bucketAt (t.hasher k % t.buckets.length)) p.1 =
          some (k, p.2) := lastMatch_nth hlm
      have hposlt : p.1 < (t.bucketAt (t.hasher k % t.buckets.length)).length :=
        nth?_lt hnth
      have hmemp : (k, p.2) ∈ t.bucketAt (t.hasher k % t.buckets.length) :=
        nth?_mem hnth
      have hv : p.2 = v := keys_nodup_value_eq hnodc hmemp hmemc
      have hcdec : t.bucketAt (t.hasher k % t.buckets.length) =
          (t.bucketAt (t.hasher k % t.buckets.length)).take p.1 ++ (k, v) ::
            (t.bucketAt (t.hasher k % t.buckets.length)).drop (p.1 + 1) := by
        have h0 := nth_decomp (t.bucketAt (t.hasher k % t.buckets.length)) p.1
          (k, v) hposlt
        have hgd : (t.bucketAt (t.hasher k % t.buckets.length)).getD p.1 (k, v)
            = (k, v) := by
          rw [getD_eq_nth?, hnth, hv]
          rfl
        rw [hgd] at h0
        exact h0
      have hpermc := swapRemove_perm (t.bucketAt (t.hasher k % t.buckets.length))
        p.1 hposlt
      have hsubc : ∀ e ∈ swapRemove (t.bucketAt (t.hasher k % t.buckets.length))
          p.1, e ∈ (t.bucketAt (t.hasher k % t.buckets.length)).take p.1 ++
            (t.bucketAt (t.hasher k % t.buckets.length)).drop (p.1 + 1) :=
        fun e he => hpermc.subset he
      have hsubc2 : ∀ e ∈ swapRemove (t.bucketAt (t.hasher k % t.buckets.length))
          p.1, e ∈ t.bucketAt (t.hasher k % t.buckets.length) := by
        intro e he
        rcases List.mem_append.mp (hsubc e he) with h1 | h2
        · exact List.mem_of_mem_take h1
        · exact List.mem_of_mem_drop h2
      -- the key is nowhere in the shrunken chain
      have hkeys : (t.bucketAt (t.hasher k % t.buckets.length)).map Prod.fst =
          ((t.bucketAt (t.hasher k % t.buckets.length)).take p.1).map Prod.fst
            ++ k :: ((t.bucketAt (t.hasher k % t.buckets.length)).drop
              (p.1 + 1)).map Prod.fst := by
        conv =>
          left
          rw [hcdec]
        simp
      have hknot : k ∉ ((t.bucketAt (t.hasher k % t.buckets.length)).take
          p.1).map Prod.fst ++ ((t.bucketAt (t.hasher k % t.buckets.length)).drop
            (p.1 + 1)).map Prod.fst := by
        have hn := hnodc
        rw [hkeys, List.nodup_middle, List.nodup_cons] at hn
        exact hn.1
      have hfree2 : ∀ e ∈ swapRemove (t.bucketAt (t.hasher k % t.buckets.length))
          p.1, e.1 ≠ k := by
        intro e he hek
        apply hknot
        have hmm : e.1 ∈ ((t.bucketAt (t.hasher k % t.buckets.length)).take
            p.1).map Prod.fst ++ ((t.bucketAt (t.hasher k %
              t.buckets.length)).drop (p.1 + 1)).map Prod.fst := by
          rcases List.mem_append.mp (hsubc e he) with h1 | h2
          · exact List.mem_append.mpr (Or.inl (List.mem_map_of_mem Prod.fst h1))
          · exact List.mem_append.mpr (Or.inr (List.mem_map_of_mem Prod.fst h2))
        rwa [hek] at hmm
      refine ⟨HashTable.mk (modifyAt t.buckets (t.hasher k % t.buckets.length)
        (fun c => swapRemove c p.1)) t.total_entries t.hasher, ?_,
        length_modifyAt _ _ _, rfl, rfl, ?_, ?_, ?_⟩
      · show (if t.buckets.length = 0 then Except.error () else _) = _
        rw [if_neg (by omega)]
        simp only [hlm, hv]
      · show findValue k ((modifyAt t.buckets (t.hasher k % t.buckets.length)
            (fun c => swapRemove c p.1)).getD
          (t.hasher k % (modifyAt t.buckets (t.hasher k % t.buckets.length)
            (fun c => swapRemove c p.1)).length) []) = none
        rw [length_modifyAt, getD_modifyAt_self _ _ _ _ hi]
        exact (findValue_none_iff k _).mpr hfree2
      · intro k2 hne
        show findValue k2 ((modifyAt t.buckets (t.hasher k % t.buckets.length)
            (fun c => swapRemove c p.1)).getD
          (t.hasher k2 % (modifyAt t.buckets (t.hasher k % t.buckets.length)
            (fun c => swapRemove c p.1)).length) []) =
          findValue k2 (t.bucketAt (t.hasher k2 % t.buckets.length))
        rw [length_modifyAt]
        by_cases hie : t.hasher k2 % t.buckets.length =
            t.hasher k % t.buckets.length
        · rw [hie, getD_modifyAt_self _ _ _ _ hi]
          show findValue k2 (swapRemove (t.bucketAt
              (t.hasher k % t.buckets.length)) p.1) =
            findValue k2 (t.bucketAt (t.hasher k % t.buckets.length))
          cases hfv : findValue k2 (t.bucketAt (t.hasher k % t.buckets.length)) with
          | some v2 =>
              have hmem2 : (k2, v2) ∈ t.bucketAt (t.hasher k % t.buckets.length) :=
                findValue_some_mem hfv
              have hmem3 : (k2, v2) ∈
                  (t.bucketAt (t.hasher k % t.buckets.length)).take p.1 ++
                    (t.bucketAt (t.hasher k % t.buckets.length)).drop (p.1 + 1) := by
                have := hmem2
                rw [hcdec] at this
                rcases List.mem_append.mp this with h1 | h2
                · exact List.mem_append.mpr (Or.inl h1)
                · rcases List.mem_cons.mp h2 with h3 | h4
                  · exact absurd (congrArg Prod.fst h3) (by simpa using hne)
                  · exact List.mem_append.mpr (Or.inr h4)
              have hmem4 : (k2, v2) ∈
                  swapRemove (t.bucketAt (t.hasher k % t.buckets.length)) p.1 :=
                hpermc.mem_iff.mpr hmem3
              obtain ⟨w, hw⟩ := findValue_isSome_of_mem hmem4
              have hmemw : (k2, w) ∈
                  swapRemove (t.bucketAt (t.hasher k % t.buckets.length)) p.1 :=
                findValue_some_mem hw
              have : w = v2 := keys_nodup_value_eq hnodc
                (hsubc2 _ hmemw) hmem2
              rw [hw, this]
          | none =>
              apply (findValue_none_iff k2 _).mpr
              intro e he
              exact (findValue_none_iff k2 _).mp hfv e (hsubc2 e he)
        · rw [getD_modifyAt_ne _ _ _ _ _ hie]
          rfl
      · constructor
        · intro i2 hi2 e he
          show t.hasher e.1 % _ = i2
          have hlen2 : (modifyAt t.buckets (t.hasher k % t.buckets.length)
              (fun c => swapRemove c p.1)).length = t.buckets.length :=
            length_modifyAt _ _ _
          have hi2' : i2 < t.buckets.length := by
            have : i2 < (modifyAt t.buckets (t.hasher k % t.buckets.length)
                (fun c => swapRemove c p.1)).length := hi2
            rwa [hlen2] at this
          rw [hlen2]
          by_cases hie : i2 = t.hasher k % t.buckets.length
          · subst hie
            have he2 : e ∈ swapRemove (t.bucketAt
                (t.hasher k % t.buckets.length)) p.1 := by
              have he' : e ∈ (modifyAt t.buckets (t.hasher k % t.buckets.length)
                  (fun c => swapRemove c p.1)).getD
                (t.hasher k % t.buckets.length) [] := he
              rwa [getD_modifyAt_self _ _ _ _ hi] at he'
            exact hinv.1 _ hi2' e (hsubc2 e he2)
          · have he2 : e ∈ t.bucketAt i2 := by
              have he' : e ∈ (modifyAt t.buckets (t.hasher k % t.buckets.length)
                  (fun c => swapRemove c p.1)).getD i2 [] := he
              rwa [getD_modifyAt_ne _ _ _ _ _ hie] at he'
            exact hinv.1 i2 hi2' e he2
        · show ((modifyAt t.buckets (t.hasher k % t.buckets.length)
              (fun c => swapRemove c p.1)).flatten.map Prod.fst).Nodup
          rw [modifyAt_decomp t.buckets _ _ [] hi, List.flatten_append,
            List.flatten_cons]
          have hbig : List.Perm
              (((List.take (t.hasher k % t.buckets.length) t.buckets).flatten ++
                (swapRemove (t.buckets.getD (t.hasher k % t.buckets.length) [])
                  p.1 ++
                  (List.drop (t.hasher k % t.buckets.length + 1)
                    t.buckets).flatten)).map Prod.fst)
              (((List.take (t.hasher k % t.buckets.length) t.buckets).flatten ++
                (((t.bucketAt (t.hasher k % t.buckets.length)).take p.1 ++
                  (t.bucketAt (t.hasher k % t.buckets.length)).drop (p.1 + 1)) ++
                  (List.drop (t.hasher k % t.buckets.length + 1)
                    t.buckets).flatten)).map Prod.fst) := by
            apply List.Perm.map
            exact List.Perm.append_left _ (hpermc.append_right _)
          rw [hbig.nodup_iff]
          have hsub : List.Sublist
              (((List.take (t.hasher k % t.buckets.length) t.buckets).flatten ++
                (((t.bucketAt (t.hasher k % t.buckets.length)).take p.1 ++
                  (t.bucketAt (t.hasher k % t.buckets.length)).drop (p.1 + 1)) ++
                  (List.drop (t.hasher k % t.buckets.length + 1)
                    t.buckets).flatten)).map Prod.fst)
              (t.entries.map Prod.fst) := by
            apply List.Sublist.map
            rw [bucket_decomp t _ hi]
            apply List.Sublist.append (List.Sublist.refl _)
            apply List.Sublist.append ?_ (List.Sublist.refl _)
            conv =>
              right
              rw [hcdec]
            exact List.Sublist.append (List.Sublist.refl _)
              (List.sublist_cons_self _ _)
          exact hsub.nodup hinv.2

/-! ### Entry API and iterator lemmas -/

theorem get_eq_ok {K V : Type} [DecidableEq K] (t : HashTable K V) (k : K)
    (hc : 0 < t.buckets.length) : t.get k = Except.ok (t.getCore k) := by
  show (if t.buckets.length = 0 then Except.error () else Except.ok (t.getCore k)) = _
  rw [if_neg (by omega)]

theorem insert_eq_map_of_absent {K V : Type} [DecidableEq K]
    (t : HashTable K V) (k : K) (v : V) (hc : 0 < t.buckets.length)
    (habs : t.getCore k = none) :
    t.insert k v = (t._insert k v (t.hasher k)).map (fun q => (none, q.2)) := by
  have hfm : firstMatch k (t.bucketAt (t.hasher k % t.buckets.length)) = none := by
    have h2 : findValue k (t.bucketAt (t.hasher k % t.buckets.length)) = none := habs
    rw [findValue_eq_firstMatch] at h2
    exact Option.map_eq_none'.mp h2
  show (if t.buckets.length = 0 then Except.error () else _) = _
  rw [if_neg (by omega), hfm]

theorem entry_eq_occupied {K V : Type} [DecidableEq K] (t : HashTable K V)
    (k : K) (v : V) (hc : 0 < t.buckets.length) (hget : t.getCore k = some v) :
    t.entry k = Except.ok (Entry.Occupied t k) := by
  show (t.get k).map _ = _
  rw [get_eq_ok t k hc, hget]
  rfl

theorem entry_eq_vacant {K V : Type} [DecidableEq K] (t : HashTable K V)
    (k : K) (hc : 0 < t.buckets.length) (hget : t.getCore k = none) :
    t.entry k = Except.ok (Entry.Vacant t k) := by
  show (t.get k).map _ = _
  rw [get_eq_ok t k hc, hget]
  rfl

theorem get_mut_eq {K V : Type} [DecidableEq K] (t : HashTable K V) (k : K)
    (hc : 0 < t.buckets.length) (pos : Nat) (v : V)
    (hfm : firstMatch k (t.bucketAt (t.hasher k % t.buckets.length)) =
      some (pos, v)) :
    t.get_mut k = Except.ok (some (t.hasher k % t.buckets.length, pos)) := by
  show (if t.buckets.length = 0 then Except.error () else _) = _
  rw [if_neg (by omega), hfm]
  rfl

theorem or_insert_occupied_eq {K V : Type} [DecidableEq K] (t : HashTable K V)
    (k : K) (x : V) (hc : 0 < t.buckets.length) (pos : Nat) (v : V)
    (hfm : firstMatch k (t.bucketAt (t.hasher k % t.buckets.length)) =
      some (pos, v)) :
    (Entry.Occupied t k).or_insert x =
      Except.ok ((t.hasher k % t.buckets.length, pos), t) := by
  show (match t.get_mut k with
    | Except.error _ => Except.error ()
    | Except.ok none => Except.error ()
    | Except.ok (some pos2) => Except.ok (pos2, t)) = _
  rw [get_mut_eq t k hc pos v hfm]

theorem mem_take_nth? {α : Type} : ∀ (l : List α) (n : Nat) (a : α),
    a ∈ l.take n → ∃ j, j < n ∧ nth? l j = some a
  | x :: xs, n + 1, a, h => by
      rcases List.mem_cons.mp (by simpa using h) with h1 | h2
      · exact ⟨0, Nat.succ_pos _, by simp [nth?, h1]⟩
      · obtain ⟨j, hj, hn⟩ := mem_take_nth? xs n a h2
        exact ⟨j + 1, Nat.succ_lt_succ hj, hn⟩
  | [], n + 1, a, h => by simp at h
  | l, 0, a, h => by simp at h

theorem occupied_ref_spec {K V : Type} [DecidableEq K] (t : HashTable K V)
    (k : K) (pos : Nat) (v : V) (hc : 0 < t.buckets.length)
    (hfm : firstMatch k (t.bucketAt (t.hasher k % t.buckets.length)) =
      some (pos, v)) :
    t.valueAt (t.hasher k % t.buckets.length, pos) = some v ∧
      ∀ f, (t.writeAt (t.hasher k % t.buckets.length, pos) f).getCore k =
        some (f v) := by
  have hi : t.hasher k % t.buckets.length < t.buckets.length := Nat.mod_lt _ hc
  have hnth : nth? (t.bucketAt (t.hasher k % t.buckets.length)) pos =
      some (k, v) := firstMatch_nth hfm
  have hposlt : pos < (t.bucketAt (t.hasher k % t.buckets.length)).length :=
    nth?_lt hnth
  obtain ⟨c0, hc0⟩ := nth?_isSome_of_lt t.buckets _ hi
  have hc0b : c0 = t.bucketAt (t.hasher k % t.buckets.length) := by
    show c0 = t.buckets.getD _ []
    rw [getD_eq_nth?, hc0]
    rfl
  have hfreeTake : ∀ e ∈ (t.bucketAt (t.hasher k % t.buckets.length)).take pos,
      e.1 ≠ k := by
    intro e he
    obtain ⟨j, hj, hn⟩ := mem_take_nth? _ pos e he
    exact firstMatch_earlier hfm j hj e hn
  constructor
  · show (nth? t.buckets (t.hasher k % t.buckets.length)).bind _ = some v
    rw [hc0, hc0b]
    simp only [Option.some_bind]
    rw [hnth]
    rfl
  · intro f
    show findValue k ((modifyAt t.buckets (t.hasher k % t.buckets.length)
        (fun c => modifyAt c pos (fun e => (e.1, f e.2)))).getD
      (t.hasher k % (modifyAt t.buckets (t.hasher k % t.buckets.length)
        (fun c => modifyAt c pos (fun e => (e.1, f e.2)))).length) []) =
      some (f v)
    rw [length_modifyAt, getD_modifyAt_self _ _ _ _ hi]
    show findValue k (modifyAt (t.bucketAt (t.hasher k % t.buckets.length)) pos
      (fun e => (e.1, f e.2))) = some (f v)
    rw [modifyAt_decomp _ pos _ (k, v) hposlt]
    have hgd : (t.bucketAt (t.hasher k % t.buckets.length)).getD pos (k, v) =
        (k, v) := by
      rw [getD_eq_nth?, hnth]
      rfl
    rw [hgd]
    rw [findValue_append_free _ hfreeTake]
    simp [findValue]

theorem runIter_eq {K V : Type} : ∀ (bs : List (List (K × V)))
    (es : List (K × V)), runIter es bs = es ++ bs.flatten
  | [], es => by
      induction es with
      | nil => simp [runIter]
      | cons e es ih => simp [runIter, ih]
  | b :: bs, es => by
      induction es with
      | nil =>
          rw [show runIter ([] : List (K × V)) (b :: bs) = runIter b bs from by
            simp [runIter]]
          rw [runIter_eq bs b]
          simp
      | cons e es ih => simp [runIter, ih]

theorem toList_next {K V : Type} : ∀ (bs : List (List (K × V)))
    (es : List (K × V)),
    (HashTableIterator.mk es bs).toList =
      (match (HashTableIterator.mk es bs).next with
        | none => []
        | some p => p.1 :: p.2.toList) := by
  intro bs
  induction bs with
  | nil =>
      intro es
      cases es with
      | nil => simp [HashTableIterator.toList, runIter, HashTableIterator.next]
      | cons e es =>
          simp [HashTableIterator.toList, runIter, HashTableIterator.next]
  | cons b bs ih =>
      intro es
      cases es with
      | nil =>
          have h1 : (HashTableIterator.mk ([] : List (K × V)) (b :: bs)).next =
              (HashTableIterator.mk b bs).next := by
            simp [HashTableIterator.next]
          have h2 : (HashTableIterator.mk ([] : List (K × V)) (b :: bs)).toList =
              (HashTableIterator.mk b bs).toList := by
            simp [HashTableIterator.toList, runIter]
          rw [h1, h2]
          exact ih b
      | cons e es =>
          simp [HashTableIterator.toList, runIter, HashTableIterator.next]

theorem iter_toList {K V : Type} (t : HashTable K V) :
    (t.iter).toList = t.entries := by
  show (t.iter).toList = t.buckets.flatten
  cases hb : t.buckets with
  | nil =>
      simp [HashTable.iter, hb, HashTableIterator.toList, runIter]
  | cons b bs =>
      simp [HashTable.iter, hb, HashTableIterator.toList]
      rw [runIter_eq]

/-! ### Invariant along reachable states -/

theorem insert_error_of_zero {K V : Type} [DecidableEq K] (t : HashTable K V)
    (k : K) (v : V) (hz : t.buckets.length = 0) :
    t.insert k v = Except.error () := by
  show (if t.buckets.length = 0 then Except.error () else _) = _
  rw [if_pos hz]

theorem remove_error_of_zero {K V : Type} [DecidableEq K] (t : HashTable K V)
    (k : K) (hz : t.buckets.length = 0) :
    t.remove k = Except.error () := by
  show (if t.buckets.length = 0 then Except.error () else _) = _
  rw [if_pos hz]

theorem get_error_of_zero {K V : Type} [DecidableEq K] (t : HashTable K V)
    (k : K) (hz : t.buckets.length = 0) :
    t.get k = Except.error () := by
  show (if t.buckets.length = 0 then Except.error () else _) = _
  rw [if_pos hz]

theorem get_mut_error_of_zero {K V : Type} [DecidableEq K] (t : HashTable K V)
    (k : K) (hz : t.buckets.length = 0) :
    t.get_mut k = Except.error () := by
  show (if t.buckets.length = 0 then Except.error () else _) = _
  rw [if_pos hz]

theorem entry_error_of_zero {K V : Type} [DecidableEq K] (t : HashTable K V)
    (k : K) (hz : t.buckets.length = 0) :
    t.entry k = Except.error () := by
  show (t.get k).map _ = _
  rw [get_error_of_zero t k hz]
  rfl

theorem reachable_inv {K V : Type} [DecidableEq K] {t : HashTable K V}
    (h : Reachable t) : t.Inv := by
  induction h with
  | with_capacity hasher c => exact with_capacity_inv hasher c
  | with_hasher hasher => exact with_capacity_inv hasher 10
  | insert t k v r t2 ht heq ih =>
      rcases Nat.eq_zero_or_pos t.buckets.length with hz | hp
      · rw [insert_error_of_zero t k v hz] at heq
        exact absurd heq (by simp)
      · cases hfm : firstMatch k (t.bucketAt (t.hasher k % t.buckets.length)) with
        | some p =>
            obtain ⟨t3, he3, _, _, _, _, _, hkeys, hgood⟩ :=
              insert_found_spec t k v hp p.1 p.2 (by rw [hfm])
            rw [he3] at heq
            have heq2 : some p.2 = r ∧ t3 = t2 := by
              have := Except.ok.inj heq
              exact ⟨congrArg Prod.fst this, congrArg Prod.snd this⟩
            rw [← heq2.2]
            refine ⟨hgood ih.1, ?_⟩
            show (t3.entries.map Prod.fst).Nodup
            rw [hkeys]
            exact ih.2
        | none =>
            have habs : t.getCore k = none := by
              show findValue k (t.bucketAt (t.hasher k % t.buckets.length)) = none
              rw [findValue_eq_firstMatch, hfm]
              rfl
            obtain ⟨t3, he3, _, _, _, _, hinv3, _, _⟩ :=
              insert_fresh_spec t k v ih hp habs
            rw [he3] at heq
            have heq2 : t3 = t2 := congrArg Prod.snd (Except.ok.inj heq)
            rw [← heq2]
            exact hinv3
  | remove t k r t2 ht heq ih =>
      rcases Nat.eq_zero_or_pos t.buckets.length with hz | hp
      · rw [remove_error_of_zero t k hz] at heq
        exact absurd heq (by simp)
      · cases hgc : t.getCore k with
        | none =>
            rw [remove_absent_spec t k hp hgc] at heq
            have heq2 : t = t2 := congrArg Prod.snd (Except.ok.inj heq)
            rw [← heq2]
            exact ih
        | some v =>
            obtain ⟨t3, he3, _, _, _, _, _, hinv3⟩ :=
              remove_found_spec t k v ih hp hgc
            rw [he3] at heq
            have heq2 : t3 = t2 := congrArg Prod.snd (Except.ok.inj heq)
            rw [← heq2]
            exact hinv3
  | or_insert t k v e pos t2 ht hentry hor ih =>
      rcases Nat.eq_zero_or_pos t.buckets.length with hz | hp
      · rw [entry_error_of_zero t k hz] at hentry
        exact absurd hentry (by simp)
      · cases hgc : t.getCore k with
        | some w =>
            rw [entry_eq_occupied t k w hp hgc] at hentry
            have he : Entry.Occupied t k = e := Except.ok.inj hentry
            have hfv : findValue k (t.bucketAt
                (t.hasher k % t.buckets.length)) = some w := hgc
            rw [findValue_eq_firstMatch] at hfv
            obtain ⟨q, hq, hw⟩ := Option.map_eq_some'.mp hfv
            rw [← he] at hor
            rw [or_insert_occupied_eq t k v hp q.1 q.2 (by rw [hq])] at hor
            have heq2 : t = t2 := congrArg Prod.snd (Except.ok.inj hor)
            rw [← heq2]
            exact ih
        | none =>
            rw [entry_eq_vacant t k hp hgc] at hentry
            have he : Entry.Vacant t k = e := Except.ok.inj hentry
            obtain ⟨j, t3, he3, _, _, _, _, hinv3, _, _, _, _⟩ :=
              insertNew_spec t k v ih hp hgc
            rw [← he] at hor
            have hor2 : t._insert k v (t.hasher k) = Except.ok (pos, t2) := hor
            rw [he3] at hor2
            have heq2 : t3 = t2 := congrArg Prod.snd (Except.ok.inj hor2)
            rw [← heq2]
            exact hinv3

/-! ### Claims -/

/-- C10: construction with explicit capacity 0 succeeds (it is an ordinary
table value whose `capacity()` is 0), but every operation that computes a
bucket index — `insert`, `get`, `get_mut`, `remove`, `entry` — hits the
remainder-by-zero panic (modelled as `Except.error ()`) instead of
returning an absence value. -/
theorem zero_capacity_panics {K V : Type} [DecidableEq K] (hasher : K → Nat)
    (k : K) (v : V) :
    (HashTable.with_capacity hasher 0 : HashTable K V).capacity = 0 ∧
      (HashTable.with_capacity hasher 0 : HashTable K V).insert k v =
        Except.error () ∧
      (HashTable.with_capacity hasher 0 : HashTable K V).get k =
        Except.error () ∧
      (HashTable.with_capacity hasher 0 : HashTable K V).get_mut k =
        Except.error () ∧
      (HashTable.with_capacity hasher 0 : HashTable K V).remove k =
        Except.error () ∧
      (HashTable.with_capacity hasher 0 : HashTable K V).entry k =
        Except.error () :=
  ⟨rfl, insert_error_of_zero _ k v rfl, get_error_of_zero _ k rfl,
    get_mut_error_of_zero _ k rfl, remove_error_of_zero _ k rfl,
    entry_error_of_zero _ k rfl⟩

/-- C9: `remove` never touches the live-entry counter `total_entries`
(present or absent key alike); the counter is incremented exactly by
new-key insertion and never decremented, so a later insert's load-factor
check compares against this counter, not the number of entries currently
stored. -/
theorem remove_keeps_counter {K V : Type} [DecidableEq K] :
    (∀ t : HashTable K V, ∀ k r t2, t.remove k = Except.ok (r, t2) →
      t2.total_entries = t.total_entries) ∧
    (∀ t : HashTable K V, ∀ k v w t2, t.insert k v = Except.ok (some w, t2) →
      t2.total_entries = t.total_entries) ∧
    (∀ t : HashTable K V, ∀ k v t2, t.insert k v = Except.ok (none, t2) →
      t2.total_entries = t.total_entries + 1) := by
  refine ⟨?_, ?_, ?_⟩
  · intro t k r t2 heq
    rcases Nat.eq_zero_or_pos t.buckets.length with hz | hp
    · rw [remove_error_of_zero t k hz] at heq
      exact absurd heq (by simp)
    · cases hlm : lastMatch k (t.bucketAt (t.hasher k % t.buckets.length)) with
      | none =>
          have he : t.remove k = Except.ok (none, t) := by
            show (if t.buckets.length = 0 then Except.error () else _) = _
            rw [if_neg (by omega)]
            simp only [hlm]
          rw [he] at heq
          have ht : t = t2 := congrArg Prod.snd (Except.ok.inj heq)
          rw [← ht]
      | some p =>
          have he : t.remove k = Except.ok (some p.2, HashTable.mk
              (modifyAt t.buckets (t.hasher k % t.buckets.length)
                (fun c => swapRemove c p.1)) t.total_entries t.hasher) := by
            show (if t.buckets.length = 0 then Except.error () else _) = _
            rw [if_neg (by omega)]
            simp only [hlm]
          rw [he] at heq
          have ht : HashTable.mk
              (modifyAt t.buckets (t.hasher k % t.buckets.length)
                (fun c => swapRemove c p.1)) t.total_entries t.hasher = t2 :=
            congrArg Prod.snd (Except.ok.inj heq)
          rw [← ht]
  · intro t k v w t2 heq
    rcases Nat.eq_zero_or_pos t.buckets.length with hz | hp
    · rw [insert_error_of_zero t k v hz] at heq
      exact absurd heq (by simp)
    · cases hfm : firstMatch k (t.bucketAt (t.hasher k % t.buckets.length)) with
      | some p =>
          obtain ⟨t3, he3, _, htot, _, _, _, _, _⟩ :=
            insert_found_spec t k v hp p.1 p.2 (by rw [hfm])
          rw [he3] at heq
          have ht : t3 = t2 := congrArg Prod.snd (Except.ok.inj heq)
          rw [← ht]
          exact htot
      | none =>
          have habs : t.getCore k = none := by
            show findValue k (t.bucketAt (t.hasher k % t.buckets.length)) = none
            rw [findValue_eq_firstMatch, hfm]
            rfl
          rw [insert_eq_map_of_absent t k v hp habs] at heq
          cases hns : t._insert k v (t.hasher k) with
          | error u =>
              rw [hns] at heq
              exact absurd heq (by simp [Except.map])
          | ok q =>
              rw [hns] at heq
              have : (none : Option V) = some w :=
                congrArg Prod.fst (Except.ok.inj heq)
              exact absurd this (by simp)
  · intro t k v t2 heq
    rcases Nat.eq_zero_or_pos t.buckets.length with hz | hp
    · rw [insert_error_of_zero t k v hz] at heq
      exact absurd heq (by simp)
    · cases hfm : firstMatch k (t.bucketAt (t.hasher k % t.buckets.length)) with
      | some p =>
          obtain ⟨t3, he3, _, _, _, _, _, _, _⟩ :=
            insert_found_spec t k v hp p.1 p.2 (by rw [hfm])
          rw [he3] at heq
          have : some p.2 = (none : Option V) :=
            congrArg Prod.fst (Except.ok.inj heq)
          exact absurd this (by simp)
      | none =>
          have habs : t.getCore k = none := by
            show findValue k (t.bucketAt (t.hasher k % t.buckets.length)) = none
            rw [findValue_eq_firstMatch, hfm]
            rfl
          rw [insert_eq_map_of_absent t k v hp habs] at heq
          obtain ⟨r1, r2, r3, r4, r5⟩ := resize_spec t
          by_cases hcond : 4 * (t.total_entries + 1) > 3 * t.buckets.length
          · rw [_insert_eq_grow t k v (t.hasher k) hcond (by omega)] at heq
            have ht2 : HashTable.mk
                (modifyAt (t.resize).buckets
                  (t.hasher k % (t.resize).buckets.length)
                  (fun c => c ++ [(k, v)]))
                ((t.resize).total_entries + 1) (t.resize).hasher = t2 := by
              have := Except.ok.inj heq
              exact congrArg Prod.snd this
            rw [← ht2]
            show (t.resize).total_entries + 1 = t.total_entries + 1
            rw [r1]
          · rw [_insert_eq_nogrow t k v (t.hasher k) hcond (by omega)] at heq
            have ht2 : HashTable.mk
                (modifyAt t.buckets (t.hasher k % t.buckets.length)
                  (fun c => c ++ [(k, v)]))
                (t.total_entries + 1) t.hasher = t2 := by
              have := Except.ok.inj heq
              exact congrArg Prod.snd this
            rw [← ht2]

/-- Witness for C9 at a concrete input: removing key 0 from `tW1` leaves
the counter unchanged. -/
theorem remove_keeps_counter_witness : tW1r.total_entries = tW1.total_entries :=
  (@remove_keeps_counter Nat Nat _).1 tW1 0 (some 5) tW1r rfl

/-- C3: inserting over an existing key returns the old value, a subsequent
`get` sees the new value, and neither the live-entry counter nor the
capacity changes (no resize check runs on the overwrite path). -/
theorem insert_overwrite_theorem {K V : Type} [DecidableEq K]
    (t : HashTable K V) (k : K) (vold vnew : V)
    (hget : t.get k = Except.ok (some vold)) :
    ∃ t2, t.insert k vnew = Except.ok (some vold, t2) ∧
      t2.get k = Except.ok (some vnew) ∧
      t2.total_entries = t.total_entries ∧
      t2.capacity = t.capacity := by
  rcases Nat.eq_zero_or_pos t.buckets.length with hz | hp
  · rw [get_error_of_zero t k hz] at hget
    exact absurd hget (by simp)
  · rw [get_eq_ok t k hp] at hget
    have hgc : t.getCore k = some vold := Except.ok.inj hget
    have hfv : findValue k (t.bucketAt (t.hasher k % t.buckets.length)) =
        some vold := hgc
    rw [findValue_eq_firstMatch] at hfv
    obtain ⟨q, hq, hqv⟩ := Option.map_eq_some'.mp hfv
    obtain ⟨t2, he2, hlen, htot, _, hget2, _, _, _⟩ :=
      insert_found_spec t k vnew hp q.1 vold
        (by rw [hq, ← hqv])
    refine ⟨t2, he2, ?_, htot, hlen⟩
    rw [get_eq_ok t2 k (by rw [hlen]; omega), hget2]

/-- Witness for C3: overwriting key 0 of `tW1` (stored value 5) with 9. -/
theorem insert_overwrite_theorem_witness :
    tW1.get 0 = Except.ok (some 5) ∧
      (∃ t2, tW1.insert 0 9 = Except.ok (some 5, t2) ∧
        t2.get 0 = Except.ok (some 9) ∧
        t2.total_entries = tW1.total_entries ∧
        t2.capacity = tW1.capacity) :=
  ⟨rfl, insert_overwrite_theorem tW1 0 5 9 rfl⟩

/-- C4: removing a present key returns its stored value and a following
`get` of it reports absence, while every other key's `get` result is
unchanged; removing an absent key returns absence and leaves the table
(entirely, as a value) unchanged. -/
theorem remove_theorem {K V : Type} [DecidableEq K] (t : HashTable K V)
    (k : K) (hinv : t.Inv) (hc : 0 < t.capacity) :
    (∀ v, t.get k = Except.ok (some v) →
      ∃ t2, t.remove k = Except.ok (some v, t2) ∧
        t2.get k = Except.ok none ∧
        ∀ k2, k2 ≠ k → t2.get k2 = t.get k2) ∧
    (t.get k = Except.ok none → t.remove k = Except.ok (none, t)) := by
  have hp : 0 < t.buckets.length := hc
  constructor
  · intro v hget
    rw [get_eq_ok t k hp] at hget
    have hgc : t.getCore k = some v := Except.ok.inj hget
    obtain ⟨t2, he2, hlen, _, _, hnone, hother, _⟩ :=
      remove_found_spec t k v hinv hp hgc
    have hp2 : 0 < t2.buckets.length := by
      rw [hlen]
      exact hp
    refine ⟨t2, he2, ?_, ?_⟩
    · rw [get_eq_ok t2 k hp2, hnone]
    · intro k2 hne
      rw [get_eq_ok t2 k2 hp2, get_eq_ok t k2 hp, hother k2 hne]
  · intro hget
    rw [get_eq_ok t k hp] at hget
    exact remove_absent_spec t k hp (Except.ok.inj hget)

/-- Witness for C4: removing present key 0 and absent key 9 from `tW1`. -/
theorem remove_theorem_witness :
    tW1.Inv ∧ 0 < tW1.capacity ∧
      ((∀ v, tW1.get 0 = Except.ok (some v) →
        ∃ t2, tW1.remove 0 = Except.ok (some v, t2) ∧
          t2.get 0 = Except.ok none ∧
          ∀ k2, k2 ≠ 0 → t2.get k2 = tW1.get k2) ∧
      (tW1.get 9 = Except.ok none → tW1.remove 9 = Except.ok (none, tW1))) :=
  ⟨by decide, by decide,
    (remove_theorem tW1 0 (by decide) (by decide)).1,
    (remove_theorem tW1 9 (by decide) (by decide)).2⟩

/-- C1: with any pure deterministic hash strategy (the model's `hasher` is
an arbitrary function, covering the degenerate constant strategy that
chains every key into one bucket), `insert k v` succeeds on every invariant
table with at least one bucket, a following `get k` returns `v`, and every
distinct key that mapped to a value before the insert still maps to it
afterward. -/
theorem insert_get_roundtrip {K V : Type} [DecidableEq K] (t : HashTable K V)
    (k : K) (v : V) (hinv : t.Inv) (hc : 0 < t.capacity) :
    ∃ r t2, t.insert k v = Except.ok (r, t2) ∧
      t2.get k = Except.ok (some v) ∧
      ∀ k2 v2, k2 ≠ k → t.get k2 = Except.ok (some v2) →
        t2.get k2 = Except.ok (some v2) := by
  have hp : 0 < t.buckets.length := hc
  cases hgc : t.getCore k with
  | some vold =>
      have hfv : findValue k (t.bucketAt (t.hasher k % t.buckets.length)) =
          some vold := hgc
      rw [findValue_eq_firstMatch] at hfv
      obtain ⟨q, hq, hqv⟩ := Option.map_eq_some'.mp hfv
      obtain ⟨t2, he2, hlen, _, _, hget2, hother, _, _⟩ :=
        insert_found_spec t k v hp q.1 vold (by rw [hq, ← hqv])
      have hp2 : 0 < t2.buckets.length := by
        rw [hlen]
        exact hp
      refine ⟨some vold, t2, he2, ?_, ?_⟩
      · rw [get_eq_ok t2 k hp2, hget2]
      · intro k2 v2 hne hgk2
        rw [get_eq_ok t k2 hp] at hgk2
        rw [get_eq_ok t2 k2 hp2, hother k2 hne]
        exact hgk2
  | none =>
      obtain ⟨t2, he2, hlen, _, _, _, _, hget2, hother⟩ :=
        insert_fresh_spec t k v hinv hp hgc
      have hp2 : 0 < t2.buckets.length := by
        rw [hlen]
        split <;> omega
      refine ⟨none, t2, he2, ?_, ?_⟩
      · rw [get_eq_ok t2 k hp2, hget2]
      · intro k2 v2 hne hgk2
        rw [get_eq_ok t k2 hp] at hgk2
        rw [get_eq_ok t2 k2 hp2, hother k2 hne]
        exact hgk2

/-- Witness for C1: inserting fresh key 2 into `tW1` (keys 0 and 1
present). -/
theorem insert_get_roundtrip_witness :
    tW1.Inv ∧ 0 < tW1.capacity ∧
      (∃ r t2, tW1.insert 2 9 = Except.ok (r, t2) ∧
        t2.get 2 = Except.ok (some 9) ∧
        ∀ k2 v2, k2 ≠ 2 → tW1.get k2 = Except.ok (some v2) →
          t2.get k2 = Except.ok (some v2)) :=
  ⟨by decide, by decide, insert_get_roundtrip tW1 2 9 (by decide) (by decide)⟩

/-- C2 (amended): for an invariant table with at least one bucket and a key
not already present, `insert` doubles the capacity exactly when
`4 * (total_entries + 1) > 3 * capacity` — the projected load factor
computed from the internal `total_entries` counter (which removals never
decrement, so after removals it can exceed the number of entries currently
stored) — and otherwise leaves the capacity unchanged; the accompanying
resize preserves all entries and their values (the new entry list is a
permutation of the old plus the new pair, each live entry re-bucketed
exactly once by the single rehash pass); the capacity never decreases, and
neither `remove` nor an overwriting `insert` ever changes it. -/
theorem insert_resize_policy {K V : Type} [DecidableEq K] (t : HashTable K V)
    (k : K) (v : V) (hinv : t.Inv) (hc : 0 < t.capacity)
    (habs : t.get k = Except.ok none) :
    ∃ t2, t.insert k v = Except.ok (none, t2) ∧
      (t2.capacity = 2 * t.capacity ↔
        4 * (t.total_entries + 1) > 3 * t.capacity) ∧
      (¬ 4 * (t.total_entries + 1) > 3 * t.capacity →
        t2.capacity = t.capacity) ∧
      List.Perm t2.entries (t.entries ++ [(k, v)]) ∧
      t.capacity ≤ t2.capacity ∧
      t2.total_entries = t.total_entries + 1 ∧
      (∀ k2 r t3, t.remove k2 = Except.ok (r, t3) →
        t3.capacity = t.capacity) ∧
      (∀ k2 v2 w t3, t.insert k2 v2 = Except.ok (some w, t3) →
        t3.capacity = t.capacity) := by
  have hp : 0 < t.buckets.length := hc
  rw [get_eq_ok t k hp] at habs
  have hgc : t.getCore k = none := Except.ok.inj habs
  obtain ⟨t2, he2, hlen, htot, _, hperm, _, _, _⟩ :=
    insert_fresh_spec t k v hinv hp hgc
  refine ⟨t2, he2, ?_, ?_, hperm, ?_, htot, ?_, ?_⟩
  · constructor
    · intro h2
      by_cases hcond : 4 * (t.total_entries + 1) > 3 * t.buckets.length
      · exact hcond
      · exfalso
        have h2b : t2.buckets.length = 2 * t.buckets.length := h2
        rw [hlen, if_neg hcond] at h2b
        omega
    · intro hcond
      have hcond2 : 4 * (t.total_entries + 1) > 3 * t.buckets.length := hcond
      show t2.buckets.length = 2 * t.buckets.length
      rw [hlen, if_pos hcond2]
      omega
  · intro hcond
    have hcond2 : ¬ 4 * (t.total_entries + 1) > 3 * t.buckets.length := hcond
    show t2.buckets.length = t.buckets.length
    rw [hlen, if_neg hcond2]
  · show t.buckets.length ≤ t2.buckets.length
    rw [hlen]
    split <;> omega
  · intro k2 r t3 heq
    cases hgc2 : t.getCore k2 with
    | none =>
        rw [remove_absent_spec t k2 hp hgc2] at heq
        have ht : t = t3 := congrArg Prod.snd (Except.ok.inj heq)
        rw [← ht]
    | some w =>
        obtain ⟨t4, he4, hlen4, _, _, _, _, _⟩ :=
          remove_found_spec t k2 w hinv hp hgc2
        rw [he4] at heq
        have ht : t4 = t3 := congrArg Prod.snd (Except.ok.inj heq)
        rw [← ht]
        exact hlen4
  · intro k2 v2 w t3 heq
    cases hfm : firstMatch k2 (t.bucketAt (t.hasher k2 % t.buckets.length)) with
    | some p =>
        obtain ⟨t4, he4, hlen4, _, _, _, _, _, _⟩ :=
          insert_found_spec t k2 v2 hp p.1 p.2 (by rw [hfm])
        rw [he4] at heq
        have ht : t4 = t3 := congrArg Prod.snd (Except.ok.inj heq)
        rw [← ht]
        exact hlen4
    | none =>
        have habs2 : t.getCore k2 = none := by
          show findValue k2 (t.bucketAt (t.hasher k2 % t.buckets.length)) = none
          rw [findValue_eq_firstMatch, hfm]
          rfl
        rw [insert_eq_map_of_absent t k2 v2 hp habs2] at heq
        cases hns : t._insert k2 v2 (t.hasher k2) with
        | error u =>
            rw [hns] at heq
            exact absurd heq (by simp [Except.map])
        | ok q =>
            rw [hns] at heq
            have : (none : Option V) = some w :=
              congrArg Prod.fst (Except.ok.inj heq)
            exact absurd this (by simp)

/-- Counterexample to C2 as stated: `cexT5` is reachable (capacity 4,
identity hash; keys 0, 1, 2 inserted and 0, 1 removed), currently stores
exactly one entry, so the claim's projected load factor
`(1 + 1) / 4 = 0.5` does not exceed 0.75 and the claim forbids growth —
yet inserting the fresh key 5 doubles the capacity to 8, because the code
computes the load factor from the never-decremented `total_entries`
counter (still 3), not from the number of stored entries. -/
theorem insert_resize_policy_cex :
    Reachable cexT5 ∧
      cexT5.entries.length = 1 ∧
      ¬ 4 * (cexT5.entries.length + 1) > 3 * cexT5.capacity ∧
      cexT5.get 5 = Except.ok none ∧
      cexT5.capacity = 4 ∧
      cexT5.insert 5 5 = Except.ok (none, cexT6) ∧
      cexT6.capacity = 2 * cexT5.capacity := by
  refine ⟨?_, by decide, by decide, rfl, by decide, rfl, by decide⟩
  have h0 : Reachable cexT0 := Reachable.with_capacity _ 4
  have h1 : Reachable cexT1 := Reachable.insert cexT0 0 0 none cexT1 h0 rfl
  have h2 : Reachable cexT2 := Reachable.insert cexT1 1 1 none cexT2 h1 rfl
  have h3 : Reachable cexT3 := Reachable.insert cexT2 2 2 none cexT3 h2 rfl
  have h4 : Reachable cexT4 := Reachable.remove cexT3 0 (some 0) cexT4 h3 rfl
  exact Reachable.remove cexT4 1 (some 1) cexT5 h4 rfl

/-- Witness for the amended C2 at a concrete input: inserting fresh key 2
into `tW1` (counter 2, capacity 3, projected load 1.0 > 0.75) doubles the
capacity to 6. -/
theorem insert_resize_policy_witness :
    tW1.Inv ∧ 0 < tW1.capacity ∧ tW1.get 2 = Except.ok none ∧
      (∃ t2, tW1.insert 2 9 = Except.ok (none, t2) ∧
        (t2.capacity = 2 * tW1.capacity ↔
          4 * (tW1.total_entries + 1) > 3 * tW1.capacity) ∧
        (¬ 4 * (tW1.total_entries + 1) > 3 * tW1.capacity →
          t2.capacity = tW1.capacity) ∧
        List.Perm t2.entries (tW1.entries ++ [(2, 9)]) ∧
        tW1.capacity ≤ t2.capacity ∧
        t2.total_entries = tW1.total_entries + 1 ∧
        (∀ k2 r t3, tW1.remove k2 = Except.ok (r, t3) →
          t3.capacity = tW1.capacity) ∧
        (∀ k2 v2 w t3, tW1.insert k2 v2 = Except.ok (some w, t3) →
          t3.capacity = tW1.capacity)) :=
  ⟨by decide, by decide, rfl,
    insert_resize_policy tW1 2 9 (by decide) (by decide) rfl⟩

/-- C5: on an absent key, `entry(k).or_insert(x)` performs exactly the
resize-then-insert sequence of `insert`'s not-found branch — the resulting
table is the very table `insert k x` produces — and returns a reference to
the newly stored `x`; on a present key it ignores `x` and returns a
reference to the existing stored value, leaving the table untouched; in
both cases writing through the returned reference is visible to a later
`get k`. -/
theorem entry_or_insert_theorem {K V : Type} [DecidableEq K]
    (t : HashTable K V) (k : K) (hinv : t.Inv) (hc : 0 < t.capacity) :
    (∀ x, t.get k = Except.ok none →
      t.entry k = Except.ok (Entry.Vacant t k) ∧
      ∃ pos t2, (Entry.Vacant t k).or_insert x = Except.ok (pos, t2) ∧
        t.insert k x = Except.ok (none, t2) ∧
        t2.valueAt pos = some x ∧
        t2.get k = Except.ok (some x) ∧
        ∀ f, (t2.writeAt pos f).get k = Except.ok (some (f x))) ∧
    (∀ x v, t.get k = Except.ok (some v) →
      t.entry k = Except.ok (Entry.Occupied t k) ∧
      ∃ pos, (Entry.Occupied t k).or_insert x = Except.ok (pos, t) ∧
        t.valueAt pos = some v ∧
        ∀ f, (t.writeAt pos f).get k = Except.ok (some (f v))) := by
  have hp : 0 < t.buckets.length := hc
  constructor
  · intro x hget
    rw [get_eq_ok t k hp] at hget
    have hgc : t.getCore k = none := Except.ok.inj hget
    obtain ⟨j, t2, he2, hlen, _, _, _, _, hget2, _, hval, hwrite⟩ :=
      insertNew_spec t k x hinv hp hgc
    have hp2 : 0 < t2.buckets.length := by
      rw [hlen]
      split <;> omega
    refine ⟨entry_eq_vacant t k hp hgc,
      (t.hasher k % t2.buckets.length, j), t2, ?_, ?_, hval, ?_, ?_⟩
    · show t._insert k x (t.hasher k) = _
      exact he2
    · rw [insert_eq_map_of_absent t k x hp hgc, he2]
      rfl
    · rw [get_eq_ok t2 k hp2, hget2]
    · intro f
      have hpw : 0 < ((t2.writeAt (t.hasher k % t2.buckets.length, j) f)).buckets.length := by
        show 0 < (modifyAt t2.buckets _ _).length
        rw [length_modifyAt]
        exact hp2
      rw [get_eq_ok _ k hpw, hwrite f]
  · intro x v hget
    rw [get_eq_ok t k hp] at hget
    have hgc : t.getCore k = some v := Except.ok.inj hget
    have hfv : findValue k (t.bucketAt (t.hasher k % t.buckets.length)) =
        some v := hgc
    rw [findValue_eq_firstMatch] at hfv
    obtain ⟨q, hq, hqv⟩ := Option.map_eq_some'.mp hfv
    have hfm : firstMatch k (t.bucketAt (t.hasher k % t.buckets.length)) =
        some (q.1, v) := by
      rw [hq, ← hqv]
    obtain ⟨hval, hwrite⟩ := occupied_ref_spec t k q.1 v hp hfm
    refine ⟨entry_eq_occupied t k v hp hgc,
      (t.hasher k % t.buckets.length, q.1),
      or_insert_occupied_eq t k x hp q.1 v hfm, hval, ?_⟩
    intro f
    have hpw : 0 < ((t.writeAt (t.hasher k % t.buckets.length, q.1) f)).buckets.length := by
      show 0 < (modifyAt t.buckets _ _).length
      rw [length_modifyAt]
      exact hp
    rw [get_eq_ok _ k hpw, hwrite f]

/-- Witness for C5: the vacant case at fresh key 2 of `tW1` and the
occupied case at present key 0 (stored value 5). -/
theorem entry_or_insert_theorem_witness :
    tW1.Inv ∧ 0 < tW1.capacity ∧
      (tW1.get 2 = Except.ok none →
        tW1.entry 2 = Except.ok (Entry.Vacant tW1 2) ∧
        ∃ pos t2, (Entry.Vacant tW1 2).or_insert 9 = Except.ok (pos, t2) ∧
          tW1.insert 2 9 = Except.ok (none, t2) ∧
          t2.valueAt pos = some 9 ∧
          t2.get 2 = Except.ok (some 9) ∧
          ∀ f, (t2.writeAt pos f).get 2 = Except.ok (some (f 9))) ∧
      (tW1.get 0 = Except.ok (some 5) →
        tW1.entry 0 = Except.ok (Entry.Occupied tW1 0) ∧
        ∃ pos, (Entry.Occupied tW1 0).or_insert 9 = Except.ok (pos, tW1) ∧
          tW1.valueAt pos = some 5 ∧
          ∀ f, (tW1.writeAt pos f).get 0 = Except.ok (some (f 5))) :=
  ⟨by decide, by decide,
    (entry_or_insert_theorem tW1 2 (by decide) (by decide)).1 9,
    fun h => (entry_or_insert_theorem tW1 0 (by decide) (by decide)).2 9 5 h⟩

/-- C6: a full traversal of an unmutated table visits buckets in store
order and, within each bucket, entries in chain order — the sequence the
iterator yields is exactly the concatenation of the chains — so no bucket
is skipped or reordered and no entry is visited twice; on a table whose
chains hold N distinct keys the traversal yields exactly N pairs with each
key appearing once.  The final conjunct characterises the yielded sequence
by the iterator's own `next` steps. -/
theorem iteration_complete {K V : Type} [DecidableEq K] (t : HashTable K V)
    (hnd : t.nodupKeys) :
    (t.iter).toList = t.entries ∧
      ((t.iter).toList.map Prod.fst).Nodup ∧
      (t.iter).toList.length = t.entries.length ∧
      (∀ it : HashTableIterator K V,
        it.toList = it.next.elim [] (fun p => p.1 :: p.2.toList)) := by
  refine ⟨iter_toList t, ?_, ?_, ?_⟩
  · rw [iter_toList t]
    exact hnd
  · rw [iter_toList t]
  · intro it
    cases it with
    | mk es bs =>
        have h := toList_next bs es
        cases hn : (HashTableIterator.mk es bs).next with
        | none =>
            rw [hn] at h
            simpa using h
        | some p =>
            rw [hn] at h
            simpa using h

/-- Witness for C6 on the two-entry table `tW1`. -/
theorem iteration_complete_witness :
    tW1.nodupKeys ∧
      ((tW1.iter).toList = tW1.entries ∧
        ((tW1.iter).toList.map Prod.fst).Nodup ∧
        (tW1.iter).toList.length = tW1.entries.length ∧
        (∀ it : HashTableIterator Nat Nat,
          it.toList = it.next.elim [] (fun p => p.1 :: p.2.toList))) :=
  ⟨by decide, iteration_complete tW1 (by decide)⟩

theorem fresh_of_perm {K V : Type} [DecidableEq K] (t : HashTable K V)
    (hg : t.goodBuckets) (L : List (K × V)) (hp : List.Perm t.entries L)
    (k : K) (hk : ∀ e ∈ L, e.1 ≠ k) : t.getCore k = none :=
  (getCore_none_iff hg).mpr (fun e he => hk e (hp.subset he))

/-- C8: every table reachable from any constructor through `insert`,
`remove` and `entry(k).or_insert` stores at most one entry per distinct key
across all chains, and the resize pass run on such a table preserves this
too. -/
theorem reachable_nodup_keys {K V : Type} [DecidableEq K] :
    (∀ t : HashTable K V, Reachable t → t.nodupKeys) ∧
    (∀ t : HashTable K V, Reachable t → (t.resize).nodupKeys) := by
  constructor
  · intro t h
    exact (reachable_inv h).2
  · intro t h
    obtain ⟨_, _, _, hperm, _⟩ := resize_spec t
    show ((t.resize).entries.map Prod.fst).Nodup
    rw [(hperm.map Prod.fst).nodup_iff]
    exact (reachable_inv h).2

/-- Witness for C8: a freshly constructed 3-bucket table (reached by its
constructor) and its resize both have no duplicate keys. -/
theorem reachable_nodup_keys_witness :
    (HashTable.with_capacity (fun n => n) 3 : HashTable Nat Nat).nodupKeys ∧
      ((HashTable.with_capacity (fun n => n) 3 :
        HashTable Nat Nat).resize).nodupKeys :=
  ⟨reachable_nodup_keys.1 _ (Reachable.with_capacity _ 3),
   reachable_nodup_keys.2 _ (Reachable.with_capacity _ 3)⟩

/-- C7: from an empty table with explicit capacity 9, inserting six
distinct keys leaves `capacity()` at 9 after each insert; inserting a
seventh distinct key (projected load (6+1)/9 > 0.75) makes `capacity()`
exactly 18, and all seven keys remain retrievable via `get` afterward.
Stated for every pure hash strategy, which covers the default one. -/
theorem growth_trigger_capacity {K V : Type} [DecidableEq K]
    (hasher : K → Nat) (k1 k2 k3 k4 k5 k6 k7 : K)
    (v1 v2 v3 v4 v5 v6 v7 : V)
    (hnd : ([k1, k2, k3, k4, k5, k6, k7] : List K).Nodup) :
    ∃ t1 t2 t3 t4 t5 t6 t7 : HashTable K V,
      (HashTable.with_capacity hasher 9).insert k1 v1 =
        Except.ok (none, t1) ∧ t1.capacity = 9 ∧
      t1.insert k2 v2 = Except.ok (none, t2) ∧ t2.capacity = 9 ∧
      t2.insert k3 v3 = Except.ok (none, t3) ∧ t3.capacity = 9 ∧
      t3.insert k4 v4 = Except.ok (none, t4) ∧ t4.capacity = 9 ∧
      t4.insert k5 v5 = Except.ok (none, t5) ∧ t5.capacity = 9 ∧
      t5.insert k6 v6 = Except.ok (none, t6) ∧ t6.capacity = 9 ∧
      t6.insert k7 v7 = Except.ok (none, t7) ∧ t7.capacity = 18 ∧
      t7.get k1 = Except.ok (some v1) ∧ t7.get k2 = Except.ok (some v2) ∧
      t7.get k3 = Except.ok (some v3) ∧ t7.get k4 = Except.ok (some v4) ∧
      t7.get k5 = Except.ok (some v5) ∧ t7.get k6 = Except.ok (some v6) ∧
      t7.get k7 = Except.ok (some v7) := by
  simp only [List.nodup_cons, List.mem_cons, List.mem_singleton, not_or,
    List.not_mem_nil, not_false_eq_true, and_true, List.nodup_nil] at hnd
  obtain ⟨⟨h12, h13, h14, h15, h16, h17⟩, ⟨h23, h24, h25, h26, h27⟩,
    ⟨h34, h35, h36, h37⟩, ⟨h45, h46, h47⟩, ⟨h56, h57⟩, h67⟩ := hnd
  have cap0 : (HashTable.with_capacity hasher 9 :
      HashTable K V).buckets.length = 9 := by
    show (List.replicate 9 ([] : List (K × V))).length = 9
    simp
  have tot0 : (HashTable.with_capacity hasher 9 :
      HashTable K V).total_entries = 0 := rfl
  have st0 : (HashTable.with_capacity hasher 9 : HashTable K V).Inv :=
    with_capacity_inv hasher 9
  have hc0 : 0 < (HashTable.with_capacity hasher 9 :
      HashTable K V).buckets.length := by
    rw [cap0]
    omega
  have perm0 : List.Perm (HashTable.with_capacity hasher 9 :
      HashTable K V).entries ([] : List (K × V)) := by
    show List.Perm (List.replicate 9 ([] : List (K × V))).flatten []
    rw [flatten_replicate_nil]
  -- step 1: insert k1 into t0
  have hf1 : (HashTable.with_capacity hasher 9 : HashTable K V).getCore k1 =
      none :=
    fresh_of_perm (HashTable.with_capacity hasher 9 : HashTable K V) st0.1
      ([] : List (K × V)) perm0 k1 (by
      intro e he
      simp at he)
  obtain ⟨t1, he1, hlen1, htot1, hh1, hpraw1, st1, hg1, ho1⟩ :=
    insert_fresh_spec (HashTable.with_capacity hasher 9 : HashTable K V)
      k1 v1 st0 hc0 hf1
  rw [tot0, cap0] at hlen1
  norm_num at hlen1
  have cap1 : t1.buckets.length = 9 := hlen1
  have tot1 : t1.total_entries = 1 := by
    rw [htot1, tot0]
  have hc1 : 0 < t1.buckets.length := by
    rw [cap1]
    omega
  have perm1 : List.Perm t1.entries [(k1, v1)] :=
    hpraw1.trans (perm0.append_right _)
  -- step 2: insert k2 into t1
  have hf2 : t1.getCore k2 = none :=
    fresh_of_perm t1 st1.1 [(k1, v1)] perm1 k2 (by
      intro e he
      simp only [List.mem_cons, List.mem_singleton, List.not_mem_nil, or_false] at he
      rw [he]
      exact h12)
  obtain ⟨t2, he2, hlen2, htot2, hh2, hpraw2, st2, hg2, ho2⟩ :=
    insert_fresh_spec t1 k2 v2 st1 hc1 hf2
  rw [tot1, cap1] at hlen2
  norm_num at hlen2
  have cap2 : t2.buckets.length = 9 := hlen2
  have tot2 : t2.total_entries = 2 := by
    rw [htot2, tot1]
  have hc2 : 0 < t2.buckets.length := by
    rw [cap2]
    omega
  have perm2 : List.Perm t2.entries [(k1, v1), (k2, v2)] :=
    hpraw2.trans (perm1.append_right _)
  -- step 3: insert k3 into t2
  have hf3 : t2.getCore k3 = none :=
    fresh_of_perm t2 st2.1 [(k1, v1), (k2, v2)] perm2 k3 (by
      intro e he
      simp only [List.mem_cons, List.mem_singleton, List.not_mem_nil, or_false] at he
      rcases he with h | h
      · rw [h]
        exact h13
      · rw [h]
        exact h23)
  obtain ⟨t3, he3, hlen3, htot3, hh3, hpraw3, st3, hg3, ho3⟩ :=
    insert_fresh_spec t2 k3 v3 st2 hc2 hf3
  rw [tot2, cap2] at hlen3
  norm_num at hlen3
  have cap3 : t3.buckets.length = 9 := hlen3
  have tot3 : t3.total_entries = 3 := by
    rw [htot3, tot2]
  have hc3 : 0 < t3.buckets.length := by
    rw [cap3]
    omega
  have perm3 : List.Perm t3.entries [(k1, v1), (k2, v2), (k3, v3)] :=
    hpraw3.trans (perm2.append_right _)
  -- step 4: insert k4 into t3
  have hf4 : t3.getCore k4 = none :=
    fresh_of_perm t3 st3.1 [(k1, v1), (k2, v2), (k3, v3)] perm3 k4 (by
      intro e he
      simp only [List.mem_cons, List.mem_singleton, List.not_mem_nil, or_false] at he
      rcases he with h | h | h
      · rw [h]
        exact h14
      · rw [h]
        exact h24
      · rw [h]
        exact h34)
  obtain ⟨t4, he4, hlen4, htot4, hh4, hpraw4, st4, hg4, ho4⟩ :=
    insert_fresh_spec t3 k4 v4 st3 hc3 hf4
  rw [tot3, cap3] at hlen4
  norm_num at hlen4
  have cap4 : t4.buckets.length = 9 := hlen4
  have tot4 : t4.total_entries = 4 := by
    rw [htot4, tot3]
  have hc4 : 0 < t4.buckets.length := by
    rw [cap4]
    omega
  have perm4 : List.Perm t4.entries [(k1, v1), (k2, v2), (k3, v3), (k4, v4)] :=
    hpraw4.trans (perm3.append_right _)
  -- step 5: insert k5 into t4
  have hf5 : t4.getCore k5 = none :=
    fresh_of_perm t4 st4.1 [(k1, v1), (k2, v2), (k3, v3), (k4, v4)] perm4 k5 (by
      intro e he
      simp only [List.mem_cons, List.mem_singleton, List.not_mem_nil, or_false] at he
      rcases he with h | h | h | h
      · rw [h]
        exact h15
      · rw [h]
        exact h25
      · rw [h]
        exact h35
      · rw [h]
        exact h45)
  obtain ⟨t5, he5, hlen5, htot5, hh5, hpraw5, st5, hg5, ho5⟩ :=
    insert_fresh_spec t4 k5 v5 st4 hc4 hf5
  rw [tot4, cap4] at hlen5
  norm_num at hlen5
  have cap5 : t5.buckets.length = 9 := hlen5
  have tot5 : t5.total_entries = 5 := by
    rw [htot5, tot4]
  have hc5 : 0 < t5.buckets.length := by
    rw [cap5]
    omega
  have perm5 : List.Perm t5.entries [(k1, v1), (k2, v2), (k3, v3), (k4, v4), (k5, v5)] :=
    hpraw5.trans (perm4.append_right _)
  -- step 6: insert k6 into t5
  have hf6 : t5.getCore k6 = none :=
    fresh_of_perm t5 st5.1 [(k1, v1), (k2, v2), (k3, v3), (k4, v4), (k5, v5)] perm5 k6 (by
      intro e he
      simp only [List.mem_cons, List.mem_singleton, List.not_mem_nil, or_false] at he
      rcases he with h | h | h | h | h
      · rw [h]
        exact h16
      · rw [h]
        exact h26
      · rw [h]
        exact h36
      · rw [h]
        exact h46
      · rw [h]
        exact h56)
  obtain ⟨t6, he6, hlen6, htot6, hh6, hpraw6, st6, hg6, ho6⟩ :=
    insert_fresh_spec t5 k6 v6 st5 hc5 hf6
  rw [tot5, cap5] at hlen6
  norm_num at hlen6
  have cap6 : t6.buckets.length = 9 := hlen6
  have tot6 : t6.total_entries = 6 := by
    rw [htot6, tot5]
  have hc6 : 0 < t6.buckets.length := by
    rw [cap6]
    omega
  have perm6 : List.Perm t6.entries [(k1, v1), (k2, v2), (k3, v3), (k4, v4), (k5, v5), (k6, v6)] :=
    hpraw6.trans (perm5.append_right _)
  -- step 7: insert k7 into t6
  have hf7 : t6.getCore k7 = none :=
    fresh_of_perm t6 st6.1 [(k1, v1), (k2, v2), (k3, v3), (k4, v4), (k5, v5), (k6, v6)] perm6 k7 (by
      intro e he
      simp only [List.mem_cons, List.mem_singleton, List.not_mem_nil, or_false] at he
      rcases he with h | h | h | h | h | h
      · rw [h]
        exact h17
      · rw [h]
        exact h27
      · rw [h]
        exact h37
      · rw [h]
        exact h47
      · rw [h]
        exact h57
      · rw [h]
        exact h67)
  obtain ⟨t7, he7, hlen7, htot7, hh7, hpraw7, st7, hg7, ho7⟩ :=
    insert_fresh_spec t6 k7 v7 st6 hc6 hf7
  rw [tot6, cap6] at hlen7
  norm_num at hlen7
  have cap7 : t7.buckets.length = 18 := hlen7
  have tot7 : t7.total_entries = 7 := by
    rw [htot7, tot6]
  have hc7 : 0 < t7.buckets.length := by
    rw [cap7]
    omega
  have perm7 : List.Perm t7.entries [(k1, v1), (k2, v2), (k3, v3), (k4, v4), (k5, v5), (k6, v6), (k7, v7)] :=
    hpraw7.trans (perm6.append_right _)
  refine ⟨t1, t2, t3, t4, t5, t6, t7, he1, cap1, he2, cap2, he3, cap3,
    he4, cap4, he5, cap5, he6, cap6, he7, cap7, ?_, ?_, ?_, ?_, ?_, ?_, ?_⟩
  · have hm : (k1, v1) ∈ t7.entries :=
      perm7.mem_iff.mpr (by simp)
    rw [get_eq_ok t7 k1 hc7, getCore_eq_of_mem st7 hc7 hm]
  · have hm : (k2, v2) ∈ t7.entries :=
      perm7.mem_iff.mpr (by simp)
    rw [get_eq_ok t7 k2 hc7, getCore_eq_of_mem st7 hc7 hm]
  · have hm : (k3, v3) ∈ t7.entries :=
      perm7.mem_iff.mpr (by simp)
    rw [get_eq_ok t7 k3 hc7, getCore_eq_of_mem st7 hc7 hm]
  · have hm : (k4, v4) ∈ t7.entries :=
      perm7.mem_iff.mpr (by simp)
    rw [get_eq_ok t7 k4 hc7, getCore_eq_of_mem st7 hc7 hm]
  · have hm : (k5, v5) ∈ t7.entries :=
      perm7.mem_iff.mpr (by simp)
    rw [get_eq_ok t7 k5 hc7, getCore_eq_of_mem st7 hc7 hm]
  · have hm : (k6, v6) ∈ t7.entries :=
      perm7.mem_iff.mpr (by simp)
    rw [get_eq_ok t7 k6 hc7, getCore_eq_of_mem st7 hc7 hm]
  · have hm : (k7, v7) ∈ t7.entries :=
      perm7.mem_iff.mpr (by simp)
    rw [get_eq_ok t7 k7 hc7, getCore_eq_of_mem st7 hc7 hm]

/-- Witness for C7 with the identity hash, keys 1..7, values 11..17. -/
theorem growth_trigger_capacity_witness :
    ([1, 2, 3, 4, 5, 6, 7] : List Nat).Nodup ∧
      (∃ t1 t2 t3 t4 t5 t6 t7 : HashTable Nat Nat,
        (HashTable.with_capacity (fun n => n) 9).insert 1 11 =
          Except.ok (none, t1) ∧ t1.capacity = 9 ∧
        t1.insert 2 12 = Except.ok (none, t2) ∧ t2.capacity = 9 ∧
        t2.insert 3 13 = Except.ok (none, t3) ∧ t3.capacity = 9 ∧
        t3.insert 4 14 = Except.ok (none, t4) ∧ t4.capacity = 9 ∧
        t4.insert 5 15 = Except.ok (none, t5) ∧ t5.capacity = 9 ∧
        t5.insert 6 16 = Except.ok (none, t6) ∧ t6.capacity = 9 ∧
        t6.insert 7 17 = Except.ok (none, t7) ∧ t7.capacity = 18 ∧
        t7.get 1 = Except.ok (some 11) ∧ t7.get 2 = Except.ok (some 12) ∧
        t7.get 3 = Except.ok (some 13) ∧ t7.get 4 = Except.ok (some 14) ∧
        t7.get 5 = Except.ok (some 15) ∧ t7.get 6 = Except.ok (some 16) ∧
        t7.get 7 = Except.ok (some 17)) :=
  ⟨by decide,
    growth_trigger_capacity (fun n => n) 1 2 3 4 5 6 7
      11 12 13 14 15 16 17 (by decide)⟩
